import Mathlib

/-!
Verification of the pymixer sequencing/mixing core.

Times and amplitudes are modelled by rationals (the Python code uses IEEE
floats, but every claim under study is about exact structural behaviour, so
the idealized field is the right setting).  Fallible Python functions
(functions that may raise `ValueError`) are modelled as `Except`-valued
functions.
-/

namespace Pymixer

instance {ε α : Type _} [DecidableEq ε] [DecidableEq α] : DecidableEq (Except ε α) :=
  fun x y =>
    match x, y with
    | .ok a, .ok b => decidable_of_iff (a = b) (by simp)
    | .error a, .error b => decidable_of_iff (a = b) (by simp)
    | .ok _, .error _ => .isFalse (by simp)
    | .error _, .ok _ => .isFalse (by simp)

/-- A MIDI note as in `pretty_midi.Note`: `end` is spelled `end_` because
`end` is a Lean keyword. -/
structure Note where
  start : ℚ
  end_ : ℚ
  pitch : ℤ
  velocity : ℤ
deriving DecidableEq, Repr

/-- A control change event as in `pretty_midi.ControlChange`. -/
structure ControlChange where
  number : ℤ
  value : ℤ
  time : ℚ
deriving DecidableEq, Repr

/-- A pitch bend event as in `pretty_midi.PitchBend`. -/
structure PitchBend where
  pitch : ℤ
  time : ℚ
deriving DecidableEq, Repr

/-- An instrument track as in `pretty_midi.Instrument`.  A freshly
constructed instrument has empty event lists. -/
structure Instrument where
  program : ℤ
  is_drum : Bool
  name : String
  notes : List Note := []
  control_changes : List ControlChange := []
  pitch_bends : List PitchBend := []
deriving DecidableEq, Repr

/-- A MIDI document as in `pretty_midi.PrettyMIDI`. -/
structure PrettyMIDI where
  instruments : List Instrument := []
deriving DecidableEq, Repr

/-- Errors raised (as Python `ValueError`) by `merge_midi_objects`. -/
inductive MergeError
  /-- Length of `caesuras_in_sec` differs from `len(midi_objects) - 1`. -/
  | lengthMismatch
  /-- `min()` / `max()` over an empty list of sounding notes. -/
  | emptyDocument
  /-- An instrument with an empty name was encountered. -/
  | unnamedInstrument
deriving DecidableEq, Repr

/-- The list comprehension `[note for instrument in midi_object.instruments
for note in instrument.notes if note.velocity > 0]`. -/
def soundingNotes (m : PrettyMIDI) : List Note :=
  ((m.instruments.map Instrument.notes).flatten).filter (fun n => 0 < n.velocity)

/-- `min(note.start for note in object_notes)` (meaningful only when the
document has sounding notes). -/
def docStart (m : PrettyMIDI) : ℚ :=
  match soundingNotes m with
  | [] => 0
  | n :: rest => (rest.map Note.start).foldl min n.start

/-- `max(note.end for note in object_notes)` (meaningful only when the
document has sounding notes). -/
def docEnd (m : PrettyMIDI) : ℚ :=
  match soundingNotes m with
  | [] => 0
  | n :: rest => (rest.map Note.end_).foldl max n.end_

/-- Shift a note in time, as in the `pretty_midi.Note(...)` construction at
lines 77-82 of `midi.py`. -/
def shiftNote (shift : ℚ) (n : Note) : Note :=
  { n with start := n.start + shift, end_ := n.end_ + shift }

/-- Shift a control change in time, as at lines 86-90 of `midi.py`. -/
def shiftCC (shift : ℚ) (c : ControlChange) : ControlChange :=
  { c with time := c.time + shift }

/-- The accumulator-track creation
`pretty_midi.Instrument(instrument_name_to_program.get(instrument.name) or
instrument.program, instrument.is_drum, instrument.name)`.  Python `x or y`
falls back to `y` both when `x` is `None` and when `x == 0`. -/
def mkOutputInstrument (pmap : List (String × ℤ)) (inst : Instrument) : Instrument :=
  { program :=
      match pmap.lookup inst.name with
      | some p => if p = 0 then inst.program else p
      | none => inst.program,
    is_drum := inst.is_drum,
    name := inst.name }

/-- The appends the per-instrument loop performs on the accumulator track
whose name matches the incoming instrument: shifted sounding notes (notes
with `velocity <= 0` are skipped) and all shifted control changes. -/
def updInst (shift : ℚ) (inst : Instrument) (i : Instrument) : Instrument :=
  { i with
    notes := i.notes ++
      ((inst.notes.filter (fun n => 0 < n.velocity)).map (shiftNote shift)),
    control_changes := i.control_changes ++ (inst.control_changes.map (shiftCC shift)) }

/-- Body of the per-instrument loop (lines 66-91 of `midi.py`): look up or
create the accumulator track keyed by the instrument's name, then append
the shifted sounding notes and all shifted control changes to it. -/
def addInstrument (pmap : List (String × ℤ)) (shift : ℚ)
    (insts : List Instrument) (inst : Instrument) : List Instrument :=
  let insts :=
    if insts.any (fun i => i.name = inst.name) then insts
    else insts ++ [mkOutputInstrument pmap inst]
  insts.map (fun i => if i.name = inst.name then updInst shift inst i else i)

/-- The per-instrument loop of one document, with the empty-name check. -/
def processInstruments (pmap : List (String × ℤ)) (shift : ℚ) :
    List Instrument → List Instrument → Except MergeError (List Instrument)
  | acc, [] => .ok acc
  | acc, inst :: rest =>
    if inst.name = "" then .error .unnamedInstrument
    else processInstruments pmap shift (addInstrument pmap shift acc inst) rest

/-- State threaded through the document loop of `merge_midi_objects`:
the name-keyed accumulator tracks (in insertion order, as a Python dict)
and the running cursor `current_time`. -/
structure MergeState where
  instruments : List Instrument
  current_time : ℚ
deriving DecidableEq, Repr

/-- One iteration of the document loop (lines 54-92 of `midi.py`). -/
def processDoc (pmap : List (String × ℤ)) (s : MergeState) (m : PrettyMIDI)
    (caesura_in_sec : ℚ) : Except MergeError MergeState :=
  match soundingNotes m with
  | [] => .error .emptyDocument
  | _ =>
    let shift := s.current_time + caesura_in_sec - docStart m
    match processInstruments pmap shift s.instruments m.instruments with
    | .error e => .error e
    | .ok insts => .ok ⟨insts, s.current_time + (docEnd m - docStart m) + caesura_in_sec⟩

/-- The whole document loop. -/
def processDocs (pmap : List (String × ℤ)) :
    MergeState → List (PrettyMIDI × ℚ) → Except MergeError MergeState
  | s, [] => .ok s
  | s, (m, c) :: rest =>
    match processDoc pmap s m c with
    | .error e => .error e
    | .ok s' => processDocs pmap s' rest

/-- The Python sort key `(x.start, x.pitch)` as a total preorder on notes. -/
def Note.keyLe (a b : Note) : Prop :=
  a.start < b.start ∨ (a.start = b.start ∧ a.pitch ≤ b.pitch)

instance : DecidableRel Note.keyLe := fun a b => by
  unfold Note.keyLe; infer_instance

instance : IsTotal Note Note.keyLe where
  total a b := by
    rcases lt_trichotomy a.start b.start with h | h | h
    · exact .inl (.inl h)
    · rcases le_total a.pitch b.pitch with h' | h'
      · exact .inl (.inr ⟨h, h'⟩)
      · exact .inr (.inr ⟨h.symm, h'⟩)
    · exact .inr (.inl h)

instance : IsTrans Note Note.keyLe where
  trans a b c hab hbc := by
    rcases hab with h | ⟨he, hp⟩ <;> rcases hbc with h' | ⟨he', hp'⟩
    · exact .inl (h.trans h')
    · exact .inl (he' ▸ h)
    · exact .inl (he ▸ h')
    · exact .inr ⟨he.trans he', hp.trans hp'⟩

/-- The sort order on accumulator tracks: `sorted(instruments.items(),
key=lambda x: x[0])` sorts by name. -/
def Instrument.nameLe (a b : Instrument) : Prop := a.name ≤ b.name

instance : DecidableRel Instrument.nameLe := fun a b => by
  unfold Instrument.nameLe; infer_instance

instance : IsTotal Instrument Instrument.nameLe where
  total a b := le_total a.name b.name

instance : IsTrans Instrument Instrument.nameLe where
  trans _ _ _ hab hbc := le_trans hab hbc

/-- Per-track finalization (lines 110-113 of `midi.py`): sort the notes by
`(start, pitch)`, then append the trailing silence note, and append the
trailing silence control change. -/
def finalizeInstrument (tn : Note) (tc : ControlChange) (i : Instrument) : Instrument :=
  { i with
    notes := List.insertionSort Note.keyLe i.notes ++ [tn],
    control_changes := i.control_changes ++ [tc] }

/-- The output-assembly stage of `merge_midi_objects` (lines 94-115 of
`midi.py`): build the trailing silence marker pair anchored at
`current_time`, emit the accumulator tracks sorted by name, and finalize
each of them. -/
def mergeFinalize (trailing_silence_in_sec : ℚ) (s : MergeState) : PrettyMIDI :=
  let trailing_silence_note : Note :=
    ⟨s.current_time, s.current_time + trailing_silence_in_sec, 1, 0⟩
  let trailing_silence_control_change : ControlChange :=
    ⟨7, 0, s.current_time + trailing_silence_in_sec⟩
  ⟨(List.insertionSort Instrument.nameLe s.instruments).map
    (finalizeInstrument trailing_silence_note trailing_silence_control_change)⟩

/-- `merge_midi_objects` (lines 17-115 of `midi.py`).  Python's stable
`list.sort` is modelled by the stable `List.insertionSort`. -/
def merge_midi_objects (midi_objects : List PrettyMIDI)
    (opening_silence_in_sec : ℚ := 0) (trailing_silence_in_sec : ℚ := 0)
    (caesuras_in_sec : Option (List ℚ) := none)
    (instrument_name_to_program : Option (List (String × ℤ)) := none) :
    Except MergeError PrettyMIDI :=
  let caesuras :=
    match caesuras_in_sec with
    | none => List.replicate (midi_objects.length - 1) (0 : ℚ)
    | some cs => cs
  if (caesuras.length : ℤ) ≠ (midi_objects.length : ℤ) - 1 then .error .lengthMismatch
  else
    let caesuras := opening_silence_in_sec :: caesuras
    let pmap := (instrument_name_to_program).getD []
    match processDocs pmap ⟨[], 0⟩ (midi_objects.zip caesuras) with
    | .error e => .error e
    | .ok s => .ok (mergeFinalize trailing_silence_in_sec s)

/-- The output track with a given name (names are unique in merge output). -/
def trackNamed (p : PrettyMIDI) (nm : String) : Option Instrument :=
  p.instruments.find? (fun i => i.name = nm)

/-! ### Specification-side descriptions of the merge result

The following definitions restate, as structural recursion over the list of
`(document, gap)` pairs, the placement rule the specification describes:
`shift = current_time + gap - doc_start` and
`current_time += (doc_end - doc_start) + gap`.  They are compared with the
fold `processDocs` actually performed by the code. -/

/-- Sounding notes of the instruments with a given name, in document order. -/
def namedSounding (l : List Instrument) (nm : String) : List Note :=
  ((l.filter (fun i => i.name = nm)).map
    (fun i => i.notes.filter (fun n => 0 < n.velocity))).flatten

/-- Control changes of the instruments with a given name, in document order. -/
def namedCCs (l : List Instrument) (nm : String) : List ControlChange :=
  ((l.filter (fun i => i.name = nm)).map Instrument.control_changes).flatten

/-- Expected placed notes of a name across the documents, using the spec's
shift `t0 + gap - doc_start` and advance `t0 + (doc_end - doc_start) + gap`. -/
def expectedNotes (nm : String) : ℚ → List (PrettyMIDI × ℚ) → List Note
  | _, [] => []
  | t0, (m, c) :: rest =>
    (namedSounding m.instruments nm).map (shiftNote (t0 + c - docStart m)) ++
      expectedNotes nm (t0 + (docEnd m - docStart m) + c) rest

/-- Expected placed control changes of a name across the documents. -/
def expectedCCs (nm : String) : ℚ → List (PrettyMIDI × ℚ) → List ControlChange
  | _, [] => []
  | t0, (m, c) :: rest =>
    (namedCCs m.instruments nm).map (shiftCC (t0 + c - docStart m)) ++
      expectedCCs nm (t0 + (docEnd m - docStart m) + c) rest

/-- The spec's running cursor after folding in all documents. -/
def advanceTime : ℚ → List (PrettyMIDI × ℚ) → ℚ
  | t0, [] => t0
  | t0, (m, c) :: rest => advanceTime (t0 + (docEnd m - docStart m) + c) rest

/-- Program and drum flag an accumulator track gets from the first
instrument with its name, with the `program_map` lookup applied. -/
def metaOf (pmap : List (String × ℤ)) (l : List Instrument) (nm : String) :
    Option (ℤ × Bool) :=
  (l.find? (fun i => i.name = nm)).map
    (fun i => ((mkOutputInstrument pmap i).program, i.is_drum))

/-- First-occurrence program/drum metadata across a list of documents. -/
def docsMeta (pmap : List (String × ℤ)) (nm : String) :
    List (PrettyMIDI × ℚ) → Option (ℤ × Bool)
  | [] => none
  | (m, _) :: rest => (metaOf pmap m.instruments nm).or (docsMeta pmap nm rest)

/-! ### Accessors into the accumulator -/

/-- The accumulator track with a given name. -/
def accFind (insts : List Instrument) (nm : String) : Option Instrument :=
  insts.find? (fun i => i.name = nm)

/-- Notes of the accumulator track with a given name (empty if absent). -/
def accNotes (insts : List Instrument) (nm : String) : List Note :=
  ((accFind insts nm).map Instrument.notes).getD []

/-- Control changes of the accumulator track with a given name. -/
def accCCs (insts : List Instrument) (nm : String) : List ControlChange :=
  ((accFind insts nm).map Instrument.control_changes).getD []

/-- Program/drum metadata of the accumulator track with a given name. -/
def accMeta (insts : List Instrument) (nm : String) : Option (ℤ × Bool) :=
  (accFind insts nm).map (fun i => (i.program, i.is_drum))

/-- First instrument with a given name across a list of documents. -/
def firstNamedInstrument (mo : List PrettyMIDI) (nm : String) : Option Instrument :=
  ((mo.map PrettyMIDI.instruments).flatten).find? (fun i => i.name = nm)

/-! ### Concrete inputs used by the scenarios and counterexamples -/

/-- One-document, one-track MIDI object of the spec's concrete scenario:
instrument "lead" with a single note `start=0, end=1, pitch=60,
velocity=80`. -/
def leadDoc : PrettyMIDI :=
  ⟨[⟨52, false, "lead", [⟨0, 1, 60, 80⟩], [], []⟩]⟩

/-- Expected merge of `[leadDoc, leadDoc]` with gap `1/2` and no opening or
trailing silence. -/
def leadMerged : PrettyMIDI :=
  ⟨[⟨52, false, "lead",
    [⟨0, 1, 60, 80⟩, ⟨3/2, 5/2, 60, 80⟩, ⟨5/2, 5/2, 1, 0⟩],
    [⟨7, 0, 5/2⟩], []⟩]⟩

/-- A document whose only track carries one sounding note and one pitch
bend event. -/
def pbDoc : PrettyMIDI :=
  ⟨[⟨0, false, "a", [⟨0, 1, 60, 80⟩], [], [⟨100, 1/2⟩]⟩]⟩

/-- A document whose track has a sounding note ending exactly at the
document end and starting there as well (a zero-length sounding note). -/
def zeroLenDoc : PrettyMIDI :=
  ⟨[⟨0, false, "a", [⟨0, 1, 60, 80⟩, ⟨1, 1, 60, 80⟩], [], []⟩]⟩

/-- A document whose track named "lead" carries program 5. -/
def mappedZeroDoc : PrettyMIDI :=
  ⟨[⟨5, false, "lead", [⟨0, 1, 60, 80⟩], [], []⟩]⟩

/-- A document with no instruments, hence no sounding notes. -/
def emptyDoc : PrettyMIDI := ⟨[]⟩

/-! ### Signal mixer (`project.py`)

A stereo air-pressure timeline of numpy shape `(2, n)` is stored as the
list of its `n` stereo sample columns; `np.vstack` at the end converts the
stacked groups into a row-major matrix (`List (List ℚ)`). -/

/-- Python `int(round(x))`: round half to even (banker's rounding). -/
def pyRound (q : ℚ) : ℤ :=
  if q - ⌊q⌋ < 1/2 then ⌊q⌋
  else if 1/2 < q - ⌊q⌋ then ⌊q⌋ + 1
  else if 2 ∣ ⌊q⌋ then ⌊q⌋ else ⌊q⌋ + 1

attribute [irreducible] pyRound

/-- A stereo timeline: the list of stereo sample columns of a `(2, n)`
array. -/
abbrev Signal := List (ℚ × ℚ)

/-- `sinethesizer.utils.misc.sum_two_sounds`, the variable-length two-operand
signal summation used by `Project.mix`: elementwise sum over the overlapping
prefix of both operands, after which the longer operand's uncontested suffix
is appended (the shorter operand is zero-padded to the longer's length). -/
def sum_two_sounds : Signal → Signal → Signal
  | [], ys => ys
  | x :: xs, [] => x :: xs
  | x :: xs, y :: ys => (x.1 + y.1, x.2 + y.2) :: sum_two_sounds xs ys

/-- `Track`: WAV-like air pressure timeline and meta-information on it. -/
structure Track where
  timeline : Signal
  start_time : ℚ := 0
deriving DecidableEq, Repr

/-- Errors raised (as Python `ValueError`) by `Project.mix`. -/
inductive MixError
  /-- `gains` length differs from `tracks` length. -/
  | shapeMismatch
  /-- A non-integer value in `grouped_track_indices`. -/
  | nonIntegerIndex
  /-- An out-of-range index in `grouped_track_indices`. -/
  | indexOutOfRange
  /-- `min()` / `max()` over an empty flattened index list. -/
  | emptyIndexList
  /-- `np.zeros((2, n))` with a negative `n`: numpy rejects negative
  dimensions, so a negative silence or start-time sample count raises. -/
  | negativeDimension
  /-- Unreachable once index validation has passed. -/
  | internalIndexError
deriving DecidableEq, Repr

/-- Python list indexing, with negative-index support. -/
def pyGet? {α : Type _} (xs : List α) (i : ℤ) : Option α :=
  if 0 ≤ i then xs.get? i.toNat
  else if (xs.length : ℤ) + i < 0 then none
  else xs.get? ((xs.length : ℤ) + i).toNat

/-- `np.zeros((2, n))` as a stereo timeline. -/
def zerosCols (n : ℕ) : Signal := List.replicate n ((0 : ℚ), (0 : ℚ))

/-- Per-track gain application `gain * track.timeline`. -/
def scaleSignal (g : ℚ) (s : Signal) : Signal := s.map (fun p => (g * p.1, g * p.2))

/-- The sample count `int(round(frame_rate * t))` as a natural number.
numpy rejects a negative count (`np.zeros` raises `ValueError` on negative
dimensions); `mixGroups` checks every such count and fails with
`negativeDimension` before any padding is built, so on every path that
reaches this definition the clamp `Int.toNat` is the identity. -/
def offsetSamples (frame_rate : ℕ) (t : ℚ) : ℕ :=
  (pyRound ((frame_rate : ℚ) * t)).toNat

/-- One processed track of a group (lines 184-187 of `project.py`):
left-pad with the start-time offset, then apply the gain. -/
def placedTrack (frame_rate : ℕ) (t : Track) (gain : ℚ) : Signal :=
  zerosCols (offsetSamples frame_rate t.start_time) ++ scaleSignal gain t.timeline

/-- The `(track, gain)` pairs of one group:
`[(self.tracks[i], gains[i]) for i in group_track_indices]`.  Indices
reaching this point have passed the integrality check, so their floor is
their value. -/
def resolveGroup (tracks : List Track) (gains : List ℚ) (g : List ℚ) :
    Option (List (Track × ℚ)) :=
  g.mapM (fun q => do
    let t ← pyGet? tracks ⌊q⌋
    let gn ← pyGet? gains ⌊q⌋
    pure (t, gn))

/-- One group's mixed timeline (lines 182-193 of `project.py`): fold the
placed tracks into the empty accumulator `np.array([[],[]])` with
`sum_two_sounds`, then pad with opening and trailing silence. -/
def groupTimeline (frame_rate : ℕ) (opening_silence trailing_silence : ℚ)
    (gd : List (Track × ℚ)) : Signal :=
  zerosCols (offsetSamples frame_rate opening_silence) ++
    gd.foldl (fun acc tg => sum_two_sounds acc (placedTrack frame_rate tg.1 tg.2)) [] ++
    zerosCols (offsetSamples frame_rate trailing_silence)

/-- `np.vstack`: stack the 2-channel group timelines into the rows of one
multi-channel matrix. -/
def vstack (gs : List Signal) : List (List ℚ) :=
  (gs.map (fun g => [g.map Prod.fst, g.map Prod.snd])).flatten

/-- Alignment and stacking (lines 196-205 of `project.py`): compute
`max_length` over the group timelines, right-pad each with zero columns to
`max_length`, and stack. -/
def stackGroups (frame_rate : ℕ) (opening_silence trailing_silence : ℚ)
    (gds : List (List (Track × ℚ))) : List (List ℚ) :=
  let mixed_timelines := gds.map (groupTimeline frame_rate opening_silence trailing_silence)
  let max_length := (mixed_timelines.map List.length).foldl max 0
  vstack (mixed_timelines.map (fun m => m ++ zerosCols (max_length - m.length)))

/-- Python `gains = gains or [1.0 for _ in self.tracks]`: `None` and the
empty list are both falsy and replaced by the defaults. -/
def effectiveGains (tracks : List Track) (gains_arg : Option (List ℚ)) : List ℚ :=
  match gains_arg with
  | none => tracks.map (fun _ => (1 : ℚ))
  | some [] => tracks.map (fun _ => (1 : ℚ))
  | some gs => gs

/-- Python `grouped_track_indices = grouped_track_indices or
[list(range(len(self.tracks)))]` (same falsiness rule). -/
def effectiveGroups (tracks : List Track)
    (grouped_track_indices : Option (List (List ℚ))) : List (List ℚ) :=
  match grouped_track_indices with
  | none => [(List.range tracks.length).map (fun k => (k : ℚ))]
  | some [] => [(List.range tracks.length).map (fun k => (k : ℚ))]
  | some gs => gs

/-- Index validation and group mixing (lines 172-205 of `project.py`).
After the index validations the group loop builds `np.zeros((2, n))` pads
for every referenced track's start-time offset and for the opening and
trailing silences of every group (the group list is non-empty here);
numpy raises `ValueError` as soon as one of those counts is negative, which
the `negativeDimension` branch models. -/
def mixGroups (tracks : List Track) (frame_rate : ℕ) (gains : List ℚ)
    (opening_silence trailing_silence : ℚ) (grouped : List (List ℚ)) :
    Except MixError (List (List ℚ)) :=
  let flat_indices := grouped.flatten
  if flat_indices.any (fun q => q ≠ (pyRound q : ℚ)) then .error .nonIntegerIndex
  else
    match flat_indices.min?, flat_indices.max? with
    | some lo, some hi =>
      if lo < -(tracks.length : ℚ) ∨ (tracks.length : ℚ) ≤ hi then
        .error .indexOutOfRange
      else
        match grouped.mapM (resolveGroup tracks gains) with
        | none => .error .internalIndexError
        | some gds =>
          if (∃ tg ∈ gds.flatten, pyRound ((frame_rate : ℚ) * tg.1.start_time) < 0) ∨
              pyRound ((frame_rate : ℚ) * opening_silence) < 0 ∨
              pyRound ((frame_rate : ℚ) * trailing_silence) < 0 then
            .error .negativeDimension
          else
            .ok (stackGroups frame_rate opening_silence trailing_silence gds)
    | _, _ => .error .emptyIndexList

/-- `Project.mix` (lines 142-205 of `project.py`).  An `Except.error` result
models a raised `ValueError`: no partial output exists in that case. -/
def Project.mix (tracks : List Track) (frame_rate : ℕ)
    (gains_arg : Option (List ℚ)) (opening_silence trailing_silence : ℚ)
    (grouped_track_indices : Option (List (List ℚ))) :
    Except MixError (List (List ℚ)) :=
  let gains := effectiveGains tracks gains_arg
  if gains.length ≠ tracks.length then .error .shapeMismatch
  else
    mixGroups tracks frame_rate gains opening_silence trailing_silence
      (effectiveGroups tracks grouped_track_indices)

/-! ### Specification-side descriptions of the mix result -/

/-- The length of one group's summed content before silence padding:
the fold of `max` over the placed track lengths. -/
def groupContentLength (tracks : List Track) (gains : List ℚ) (frame_rate : ℕ)
    (g : List ℚ) : ℕ :=
  ((resolveGroup tracks gains g).getD []).foldl
    (fun n tg => max n (placedTrack frame_rate tg.1 tg.2).length) 0

/-- The spec-side output length: the maximum over groups of the sum of the
opening padding, that group's content length, and the trailing padding. -/
def mixOutputLength (tracks : List Track) (gains : List ℚ) (frame_rate : ℕ)
    (opening_silence trailing_silence : ℚ) (gs : List (List ℚ)) : ℕ :=
  (gs.map (fun g => offsetSamples frame_rate opening_silence +
    groupContentLength tracks gains frame_rate g +
    offsetSamples frame_rate trailing_silence)).foldl max 0

/-- A one-sample silent track used by concrete mixing scenarios. -/
def oneSampleTrack : Track := ⟨[(0, 0)], 0⟩

theorem updInst_name (shift : ℚ) (inst i : Instrument) :
    (updInst shift inst i).name = i.name := rfl

theorem accFind_mapUpdate (acc : List Instrument) (inst : Instrument)
    (shift : ℚ) (nm : String) :
    accFind (acc.map (fun i => if i.name = inst.name then updInst shift inst i else i)) nm =
      (accFind acc nm).map (fun i => if i.name = inst.name then updInst shift inst i else i) := by
  unfold accFind
  have hp : ((fun i => decide (i.name = nm)) ∘
        fun i => if i.name = inst.name then updInst shift inst i else i) =
      (fun i => decide (i.name = nm)) := by
    funext i
    simp [Function.comp, apply_ite Instrument.name, updInst_name]
  rw [List.find?_map, hp]

theorem accFind_append_single (acc : List Instrument) (x : Instrument) (nm : String) :
    accFind (acc ++ [x]) nm =
      (accFind acc nm).or (if x.name = nm then some x else none) := by
  simp only [accFind, List.find?_append]
  congr 1
  by_cases hx : x.name = nm <;> simp [List.find?, hx]

theorem any_eq_false_iff_accFind_eq_none (acc : List Instrument) (nm : String) :
    acc.any (fun i => i.name = nm) = false ↔ accFind acc nm = none := by
  simp [accFind, List.find?_eq_none, List.any_eq_false]

theorem name_of_accFind {acc : List Instrument} {nm : String} {i : Instrument}
    (h : accFind acc nm = some i) : i.name = nm := by
  simpa using List.find?_some h

/-- Characterization of one step of the per-instrument loop, through the
name-keyed lookup. -/
theorem accFind_addInstrument (pmap : List (String × ℤ)) (shift : ℚ)
    (acc : List Instrument) (inst : Instrument) (nm : String) :
    accFind (addInstrument pmap shift acc inst) nm =
      if nm = inst.name then
        some (updInst shift inst ((accFind acc inst.name).getD (mkOutputInstrument pmap inst)))
      else accFind acc nm := by
  unfold addInstrument
  rcases hany : acc.any (fun i => i.name = inst.name) with _ | _
  · have hnone : accFind acc inst.name = none :=
      (any_eq_false_iff_accFind_eq_none acc inst.name).mp hany
    simp only [Bool.false_eq_true, if_false]
    rw [accFind_mapUpdate (acc ++ [mkOutputInstrument pmap inst]) inst shift nm,
      accFind_append_single]
    by_cases hnm : nm = inst.name
    · rw [hnm, if_pos rfl, hnone]
      simp [mkOutputInstrument]
    · rw [if_neg hnm]
      have hx : ((if (mkOutputInstrument pmap inst).name = nm
          then some (mkOutputInstrument pmap inst) else none) : Option Instrument) = none := by
        rw [if_neg]
        show ¬ inst.name = nm
        exact fun h => hnm h.symm
      rw [hx]
      rcases h : accFind acc nm with _ | i
      · simp
      · have hi : i.name = nm := name_of_accFind h
        have hine : ¬ i.name = inst.name := fun hc => hnm (hi.symm.trans hc)
        simp [hine]
  · simp only [reduceIte]
    rw [accFind_mapUpdate]
    by_cases hnm : nm = inst.name
    · rw [hnm, if_pos rfl]
      rcases h : accFind acc inst.name with _ | i
      · rw [← any_eq_false_iff_accFind_eq_none] at h
        rw [h] at hany
        simp at hany
      · have hi : i.name = inst.name := name_of_accFind h
        simp [hi]
    · rw [if_neg hnm]
      rcases h : accFind acc nm with _ | i
      · simp
      · have hi : i.name = nm := name_of_accFind h
        have hine : ¬ i.name = inst.name := fun hc => hnm (hi.symm.trans hc)
        simp [hine]

theorem accNotes_addInstrument (pmap : List (String × ℤ)) (shift : ℚ)
    (acc : List Instrument) (inst : Instrument) (nm : String) :
    accNotes (addInstrument pmap shift acc inst) nm =
      accNotes acc nm ++
        (if inst.name = nm then
          (inst.notes.filter (fun n => 0 < n.velocity)).map (shiftNote shift) else []) := by
  unfold accNotes
  rw [accFind_addInstrument]
  by_cases hnm : nm = inst.name
  · rw [if_pos hnm, if_pos hnm.symm, hnm]
    rcases h : accFind acc inst.name with _ | i
    · simp [h, updInst, mkOutputInstrument]
    · simp [h, updInst]
  · rw [if_neg hnm, if_neg (fun hc => hnm hc.symm), List.append_nil]

theorem accCCs_addInstrument (pmap : List (String × ℤ)) (shift : ℚ)
    (acc : List Instrument) (inst : Instrument) (nm : String) :
    accCCs (addInstrument pmap shift acc inst) nm =
      accCCs acc nm ++
        (if inst.name = nm then inst.control_changes.map (shiftCC shift) else []) := by
  unfold accCCs
  rw [accFind_addInstrument]
  by_cases hnm : nm = inst.name
  · rw [if_pos hnm, if_pos hnm.symm, hnm]
    rcases h : accFind acc inst.name with _ | i
    · simp [h, updInst, mkOutputInstrument]
    · simp [h, updInst]
  · rw [if_neg hnm, if_neg (fun hc => hnm hc.symm), List.append_nil]

theorem accMeta_addInstrument (pmap : List (String × ℤ)) (shift : ℚ)
    (acc : List Instrument) (inst : Instrument) (nm : String) :
    accMeta (addInstrument pmap shift acc inst) nm =
      (accMeta acc nm).or
        (if inst.name = nm then
          some ((mkOutputInstrument pmap inst).program, inst.is_drum) else none) := by
  unfold accMeta
  rw [accFind_addInstrument]
  by_cases hnm : nm = inst.name
  · rw [if_pos hnm, if_pos hnm.symm, hnm]
    rcases h : accFind acc inst.name with _ | i
    · simp [h, updInst, mkOutputInstrument]
    · simp [h, updInst]
  · rw [if_neg hnm, if_neg (fun hc => hnm hc.symm), Option.or_none]

theorem pitch_bends_addInstrument (pmap : List (String × ℤ)) (shift : ℚ)
    (acc : List Instrument) (inst : Instrument)
    (hacc : ∀ i ∈ acc, i.pitch_bends = []) :
    ∀ i ∈ addInstrument pmap shift acc inst, i.pitch_bends = [] := by
  intro i hi
  unfold addInstrument at hi
  by_cases hany : acc.any (fun i => i.name = inst.name) = true
  · rw [if_pos hany] at hi
    rcases List.mem_map.mp hi with ⟨j, hj, rfl⟩
    by_cases hn : j.name = inst.name <;> simp [hn, updInst, hacc j hj]
  · rw [if_neg hany] at hi
    rcases List.mem_map.mp hi with ⟨j, hj, rfl⟩
    have hjpb : j.pitch_bends = [] := by
      rcases List.mem_append.mp hj with hj' | hj'
      · exact hacc j hj'
      · rcases List.mem_singleton.mp hj' with rfl
        rfl
    by_cases hn : j.name = inst.name <;> simp [hn, updInst, hjpb]

theorem accFind_isSome_addInstrument (pmap : List (String × ℤ)) (shift : ℚ)
    (acc : List Instrument) (inst : Instrument) (nm : String) :
    (accFind (addInstrument pmap shift acc inst) nm).isSome = true ↔
      (accFind acc nm).isSome = true ∨ inst.name = nm := by
  rw [accFind_addInstrument]
  by_cases hnm : nm = inst.name
  · simp [if_pos hnm, hnm.symm]
  · rw [if_neg hnm]
    constructor
    · exact fun h => .inl h
    · rintro (h | h)
      · exact h
      · exact absurd h.symm hnm

theorem namesList_addInstrument (pmap : List (String × ℤ)) (shift : ℚ)
    (acc : List Instrument) (inst : Instrument) :
    (addInstrument pmap shift acc inst).map Instrument.name =
      if acc.any (fun i => i.name = inst.name) then acc.map Instrument.name
      else acc.map Instrument.name ++ [inst.name] := by
  unfold addInstrument
  have hmap : ∀ l : List Instrument,
      (l.map (fun i => if i.name = inst.name then updInst shift inst i else i)).map
        Instrument.name = l.map Instrument.name := by
    intro l
    rw [List.map_map]
    apply List.map_congr_left
    intro i _
    simp [Function.comp, apply_ite Instrument.name, updInst_name]
  rcases acc.any (fun i => i.name = inst.name) with _ | _
  · simpa [mkOutputInstrument] using hmap (acc ++ [mkOutputInstrument pmap inst])
  · simpa using hmap acc

theorem nodup_names_addInstrument (pmap : List (String × ℤ)) (shift : ℚ)
    (acc : List Instrument) (inst : Instrument)
    (h : (acc.map Instrument.name).Nodup) :
    ((addInstrument pmap shift acc inst).map Instrument.name).Nodup := by
  rw [namesList_addInstrument]
  rcases hany : acc.any (fun i => i.name = inst.name) with _ | _
  · simp only [Bool.false_eq_true, if_false]
    have hnot : inst.name ∉ acc.map Instrument.name := by
      intro hmem
      rcases List.mem_map.mp hmem with ⟨j, hj, hjn⟩
      have : acc.any (fun i => i.name = inst.name) = true :=
        List.any_eq_true.mpr ⟨j, hj, by simp [hjn]⟩
      rw [hany] at this
      simp at this
    simp [List.nodup_append, h, hnot]
  · simpa using h

/-- The per-instrument loop succeeds iff no instrument name is empty. -/
theorem processInstruments_ok (pmap : List (String × ℤ)) (shift : ℚ) :
    ∀ (l : List Instrument) (acc : List Instrument),
      (∀ i ∈ l, i.name ≠ "") →
      ∃ acc', processInstruments pmap shift acc l = .ok acc' := by
  intro l
  induction l with
  | nil => exact fun acc _ => ⟨acc, rfl⟩
  | cons inst rest ih =>
    intro acc h
    have hname : inst.name ≠ "" := h inst (by simp)
    have := ih (addInstrument pmap shift acc inst) (fun i hi => h i (by simp [hi]))
    simpa [processInstruments, hname] using this

theorem processInstruments_error (pmap : List (String × ℤ)) (shift : ℚ) :
    ∀ (l : List Instrument) (acc : List Instrument) (e : MergeError),
      processInstruments pmap shift acc l = .error e → e = .unnamedInstrument := by
  intro l
  induction l with
  | nil => intro acc e h; exact absurd h (by simp [processInstruments])
  | cons inst rest ih =>
    intro acc e h
    by_cases hname : inst.name = ""
    · simp [processInstruments, hname] at h
      exact h.symm
    · exact ih (addInstrument pmap shift acc inst) e (by simpa [processInstruments, hname] using h)

theorem namedSounding_cons (inst : Instrument) (l : List Instrument) (nm : String) :
    namedSounding (inst :: l) nm =
      (if inst.name = nm then inst.notes.filter (fun n => 0 < n.velocity) else []) ++
        namedSounding l nm := by
  unfold namedSounding
  by_cases h : inst.name = nm <;> simp [List.filter_cons, h]

theorem namedCCs_cons (inst : Instrument) (l : List Instrument) (nm : String) :
    namedCCs (inst :: l) nm =
      (if inst.name = nm then inst.control_changes else []) ++ namedCCs l nm := by
  unfold namedCCs
  by_cases h : inst.name = nm <;> simp [List.filter_cons, h]

theorem metaOf_cons (pmap : List (String × ℤ)) (inst : Instrument)
    (l : List Instrument) (nm : String) :
    metaOf pmap (inst :: l) nm =
      (if inst.name = nm then
        some ((mkOutputInstrument pmap inst).program, inst.is_drum) else none).or
        (metaOf pmap l nm) := by
  unfold metaOf
  by_cases h : inst.name = nm <;> simp [List.find?_cons, h]

theorem processInstruments_cons_of_named (pmap : List (String × ℤ)) (shift : ℚ)
    (acc : List Instrument) (inst : Instrument) (rest : List Instrument)
    (hname : ¬ inst.name = "") :
    processInstruments pmap shift acc (inst :: rest) =
      processInstruments pmap shift (addInstrument pmap shift acc inst) rest := by
  simp [processInstruments, hname]

theorem processInstruments_notes (pmap : List (String × ℤ)) (shift : ℚ) :
    ∀ (l acc acc' : List Instrument),
      processInstruments pmap shift acc l = .ok acc' →
      ∀ nm, accNotes acc' nm =
        accNotes acc nm ++ (namedSounding l nm).map (shiftNote shift) := by
  intro l
  induction l with
  | nil =>
    intro acc acc' h nm
    simp only [processInstruments, Except.ok.injEq] at h
    subst h
    simp [namedSounding]
  | cons inst rest ih =>
    intro acc acc' h nm
    by_cases hname : inst.name = ""
    · simp [processInstruments, hname] at h
    · rw [processInstruments_cons_of_named pmap shift acc inst rest hname] at h
      rw [ih _ _ h nm, accNotes_addInstrument, namedSounding_cons, List.map_append,
        apply_ite (List.map (shiftNote shift)), List.append_assoc]
      simp

theorem processInstruments_ccs (pmap : List (String × ℤ)) (shift : ℚ) :
    ∀ (l acc acc' : List Instrument),
      processInstruments pmap shift acc l = .ok acc' →
      ∀ nm, accCCs acc' nm =
        accCCs acc nm ++ (namedCCs l nm).map (shiftCC shift) := by
  intro l
  induction l with
  | nil =>
    intro acc acc' h nm
    simp only [processInstruments, Except.ok.injEq] at h
    subst h
    simp [namedCCs]
  | cons inst rest ih =>
    intro acc acc' h nm
    by_cases hname : inst.name = ""
    · simp [processInstruments, hname] at h
    · rw [processInstruments_cons_of_named pmap shift acc inst rest hname] at h
      rw [ih _ _ h nm, accCCs_addInstrument, namedCCs_cons, List.map_append,
        apply_ite (List.map (shiftCC shift)), List.append_assoc]
      simp

theorem processInstruments_meta (pmap : List (String × ℤ)) (shift : ℚ) :
    ∀ (l acc acc' : List Instrument),
      processInstruments pmap shift acc l = .ok acc' →
      ∀ nm, accMeta acc' nm = (accMeta acc nm).or (metaOf pmap l nm) := by
  intro l
  induction l with
  | nil =>
    intro acc acc' h nm
    simp only [processInstruments, Except.ok.injEq] at h
    subst h
    simp [metaOf]
  | cons inst rest ih =>
    intro acc acc' h nm
    by_cases hname : inst.name = ""
    · simp [processInstruments, hname] at h
    · rw [processInstruments_cons_of_named pmap shift acc inst rest hname] at h
      rw [ih _ _ h nm, accMeta_addInstrument, metaOf_cons, Option.or_assoc]

theorem processInstruments_pb (pmap : List (String × ℤ)) (shift : ℚ) :
    ∀ (l acc acc' : List Instrument),
      processInstruments pmap shift acc l = .ok acc' →
      (∀ i ∈ acc, i.pitch_bends = []) →
      ∀ i ∈ acc', i.pitch_bends = [] := by
  intro l
  induction l with
  | nil =>
    intro acc acc' h hacc
    simp only [processInstruments, Except.ok.injEq] at h
    subst h
    exact hacc
  | cons inst rest ih =>
    intro acc acc' h hacc
    by_cases hname : inst.name = ""
    · simp [processInstruments, hname] at h
    · rw [processInstruments_cons_of_named pmap shift acc inst rest hname] at h
      exact ih _ _ h (pitch_bends_addInstrument pmap shift acc inst hacc)

theorem processInstruments_names (pmap : List (String × ℤ)) (shift : ℚ) :
    ∀ (l acc acc' : List Instrument),
      processInstruments pmap shift acc l = .ok acc' →
      ∀ nm, (accFind acc' nm).isSome = true ↔
        (accFind acc nm).isSome = true ∨ ∃ i ∈ l, i.name = nm := by
  intro l
  induction l with
  | nil =>
    intro acc acc' h nm
    simp only [processInstruments, Except.ok.injEq] at h
    subst h
    simp
  | cons inst rest ih =>
    intro acc acc' h nm
    by_cases hname : inst.name = ""
    · simp [processInstruments, hname] at h
    · rw [processInstruments_cons_of_named pmap shift acc inst rest hname] at h
      rw [ih _ _ h nm, accFind_isSome_addInstrument]
      simp only [List.mem_cons]
      constructor
      · rintro ((ha | hc) | ⟨i, hi, hn⟩)
        · exact .inl ha
        · exact .inr ⟨inst, .inl rfl, hc⟩
        · exact .inr ⟨i, .inr hi, hn⟩
      · rintro (ha | ⟨i, (rfl | hi), hn⟩)
        · exact .inl (.inl ha)
        · exact .inl (.inr hn)
        · exact .inr ⟨i, hi, hn⟩

theorem processInstruments_nodup (pmap : List (String × ℤ)) (shift : ℚ) :
    ∀ (l acc acc' : List Instrument),
      processInstruments pmap shift acc l = .ok acc' →
      (acc.map Instrument.name).Nodup → (acc'.map Instrument.name).Nodup := by
  intro l
  induction l with
  | nil =>
    intro acc acc' h hacc
    simp only [processInstruments, Except.ok.injEq] at h
    subst h
    exact hacc
  | cons inst rest ih =>
    intro acc acc' h hacc
    by_cases hname : inst.name = ""
    · simp [processInstruments, hname] at h
    · rw [processInstruments_cons_of_named pmap shift acc inst rest hname] at h
      exact ih _ _ h (nodup_names_addInstrument pmap shift acc inst hacc)

theorem processDoc_of_sounding (pmap : List (String × ℤ)) (s : MergeState)
    (m : PrettyMIDI) (c : ℚ) (hs : soundingNotes m ≠ []) :
    processDoc pmap s m c =
      match processInstruments pmap (s.current_time + c - docStart m)
          s.instruments m.instruments with
      | .error e => .error e
      | .ok insts => .ok ⟨insts, s.current_time + (docEnd m - docStart m) + c⟩ := by
  unfold processDoc
  rcases h : soundingNotes m with _ | ⟨n, rest⟩
  · exact absurd h hs
  · rfl

theorem processDoc_of_empty (pmap : List (String × ℤ)) (s : MergeState)
    (m : PrettyMIDI) (c : ℚ) (hs : soundingNotes m = []) :
    processDoc pmap s m c = .error .emptyDocument := by
  unfold processDoc
  rw [hs]

theorem processDoc_ok_inv (pmap : List (String × ℤ)) (s : MergeState)
    (m : PrettyMIDI) (c : ℚ) (s1 : MergeState)
    (h : processDoc pmap s m c = .ok s1) :
    soundingNotes m ≠ [] ∧
    processInstruments pmap (s.current_time + c - docStart m)
      s.instruments m.instruments = .ok s1.instruments ∧
    s1.current_time = s.current_time + (docEnd m - docStart m) + c := by
  rcases hs : soundingNotes m with _ | ⟨n, rest⟩
  · rw [processDoc_of_empty pmap s m c hs] at h
    simp at h
  · have hs' : soundingNotes m ≠ [] := by rw [hs]; simp
    rw [processDoc_of_sounding pmap s m c hs'] at h
    rcases hpi : processInstruments pmap (s.current_time + c - docStart m)
        s.instruments m.instruments with e | insts
    · rw [hpi] at h; simp at h
    · rw [hpi] at h
      simp only [Except.ok.injEq] at h
      subst h
      exact ⟨by simp, rfl, rfl⟩

theorem processDoc_ok (pmap : List (String × ℤ)) (s : MergeState)
    (m : PrettyMIDI) (c : ℚ) (hs : soundingNotes m ≠ [])
    (hnames : ∀ i ∈ m.instruments, i.name ≠ "") :
    ∃ s1, processDoc pmap s m c = .ok s1 := by
  obtain ⟨acc', hok⟩ :=
    processInstruments_ok pmap (s.current_time + c - docStart m) m.instruments
      s.instruments hnames
  exact ⟨⟨acc', s.current_time + (docEnd m - docStart m) + c⟩, by
    rw [processDoc_of_sounding pmap s m c hs, hok]⟩

theorem processDocs_cons (pmap : List (String × ℤ)) (s : MergeState)
    (m : PrettyMIDI) (c : ℚ) (rest : List (PrettyMIDI × ℚ)) (s1 : MergeState)
    (hd : processDoc pmap s m c = .ok s1) :
    processDocs pmap s ((m, c) :: rest) = processDocs pmap s1 rest := by
  show (match processDoc pmap s m c with
    | .error e => .error e
    | .ok s' => processDocs pmap s' rest) = processDocs pmap s1 rest
  rw [hd]

/-- The fold performed by `merge_midi_objects` agrees with the
specification-side description of the merge: cursor recurrence, per-name note
and control-change placement, first-occurrence metadata, absence of pitch
bends, name union, and uniqueness of names. -/
theorem processDocs_spec (pmap : List (String × ℤ)) :
    ∀ (l : List (PrettyMIDI × ℚ)) (s s' : MergeState),
      processDocs pmap s l = .ok s' →
      s'.current_time = advanceTime s.current_time l ∧
      (∀ nm, accNotes s'.instruments nm =
        accNotes s.instruments nm ++ expectedNotes nm s.current_time l) ∧
      (∀ nm, accCCs s'.instruments nm =
        accCCs s.instruments nm ++ expectedCCs nm s.current_time l) ∧
      (∀ nm, accMeta s'.instruments nm =
        (accMeta s.instruments nm).or (docsMeta pmap nm l)) ∧
      ((∀ i ∈ s.instruments, i.pitch_bends = []) →
        ∀ i ∈ s'.instruments, i.pitch_bends = []) ∧
      (∀ nm, (accFind s'.instruments nm).isSome = true ↔
        (accFind s.instruments nm).isSome = true ∨
          ∃ mc ∈ l, ∃ i ∈ (Prod.fst mc).instruments, i.name = nm) ∧
      ((s.instruments.map Instrument.name).Nodup →
        (s'.instruments.map Instrument.name).Nodup) := by
  intro l
  induction l with
  | nil =>
    intro s s' h
    simp only [processDocs, Except.ok.injEq] at h
    subst h
    refine ⟨rfl, fun nm => by simp [expectedNotes], fun nm => by simp [expectedCCs],
      fun nm => by simp [docsMeta], fun h0 => h0, fun nm => by simp, fun h0 => h0⟩
  | cons mc rest ih =>
    obtain ⟨m, c⟩ := mc
    intro s s' h
    rcases hd : processDoc pmap s m c with e | s1
    · unfold processDocs at h
      rw [hd] at h
      simp at h
    · have h' : processDocs pmap s1 rest = .ok s' := by
        rw [← processDocs_cons pmap s m c rest s1 hd]
        exact h
      obtain ⟨htime, hnotes, hccs, hmeta, hpb, hnames, hnodup⟩ := ih s1 s' h'
      obtain ⟨hsnd, hpi, ht1⟩ := processDoc_ok_inv pmap s m c s1 hd
      refine ⟨?_, ?_, ?_, ?_, ?_, ?_, ?_⟩
      · rw [htime, ht1]
        rfl
      · intro nm
        rw [hnotes nm, ht1,
          processInstruments_notes pmap _ m.instruments s.instruments s1.instruments hpi nm]
        simp [expectedNotes, List.append_assoc]
      · intro nm
        rw [hccs nm, ht1,
          processInstruments_ccs pmap _ m.instruments s.instruments s1.instruments hpi nm]
        simp [expectedCCs, List.append_assoc]
      · intro nm
        rw [hmeta nm,
          processInstruments_meta pmap _ m.instruments s.instruments s1.instruments hpi nm,
          Option.or_assoc]
        rfl
      · intro h0
        exact hpb
          (processInstruments_pb pmap _ m.instruments s.instruments s1.instruments hpi h0)
      · intro nm
        rw [hnames nm,
          processInstruments_names pmap _ m.instruments s.instruments s1.instruments hpi nm]
        simp only [List.mem_cons]
        constructor
        · rintro ((ha | ⟨i, hi, hn⟩) | ⟨mc', hmc', i, hi, hn⟩)
          · exact .inl ha
          · exact .inr ⟨(m, c), .inl rfl, i, hi, hn⟩
          · exact .inr ⟨mc', .inr hmc', i, hi, hn⟩
        · rintro (ha | ⟨mc', (rfl | hmc'), i, hi, hn⟩)
          · exact .inl (.inl ha)
          · exact .inl (.inr ⟨i, hi, hn⟩)
          · exact .inr ⟨mc', hmc', i, hi, hn⟩
      · intro h0
        exact hnodup
          (processInstruments_nodup pmap _ m.instruments s.instruments s1.instruments hpi h0)

theorem processDocs_ok (pmap : List (String × ℤ)) :
    ∀ (l : List (PrettyMIDI × ℚ)) (s : MergeState),
      (∀ mc ∈ l, soundingNotes (Prod.fst mc) ≠ []) →
      (∀ mc ∈ l, ∀ i ∈ (Prod.fst mc).instruments, i.name ≠ "") →
      ∃ s', processDocs pmap s l = .ok s' := by
  intro l
  induction l with
  | nil => exact fun s _ _ => ⟨s, rfl⟩
  | cons mc rest ih =>
    obtain ⟨m, c⟩ := mc
    intro s hs hn
    obtain ⟨s1, hd⟩ := processDoc_ok pmap s m c (hs (m, c) (by simp))
      (hn (m, c) (by simp))
    obtain ⟨s', hrest⟩ := ih s1 (fun mc hmc => hs mc (by simp [hmc]))
      (fun mc hmc => hn mc (by simp [hmc]))
    exact ⟨s', by rw [processDocs_cons pmap s m c rest s1 hd]; exact hrest⟩

theorem processDocs_error_iff (pmap : List (String × ℤ)) :
    ∀ (l : List (PrettyMIDI × ℚ)) (s : MergeState),
      (∀ mc ∈ l, ∀ i ∈ (Prod.fst mc).instruments, i.name ≠ "") →
      (processDocs pmap s l = .error .emptyDocument ↔
        ∃ mc ∈ l, soundingNotes (Prod.fst mc) = []) := by
  intro l
  induction l with
  | nil =>
    intro s _
    simp [processDocs]
  | cons mc rest ih =>
    obtain ⟨m, c⟩ := mc
    intro s hn
    rcases hs : soundingNotes m with _ | ⟨n0, ns⟩
    · have : processDocs pmap s ((m, c) :: rest) = .error .emptyDocument := by
        unfold processDocs
        rw [processDoc_of_empty pmap s m c hs]
      rw [this]
      simp only [true_iff]
      exact ⟨(m, c), by simp, hs⟩
    · have hs' : soundingNotes m ≠ [] := by rw [hs]; simp
      obtain ⟨s1, hd⟩ := processDoc_ok pmap s m c hs' (hn (m, c) (by simp))
      rw [processDocs_cons pmap s m c rest s1 hd,
        ih s1 (fun mc hmc => hn mc (by simp [hmc]))]
      constructor
      · rintro ⟨mc', hmc', hemp⟩
        exact ⟨mc', by simp [hmc'], hemp⟩
      · rintro ⟨mc', hmc', hemp⟩
        rcases List.mem_cons.mp hmc' with rfl | hmc''
        · exact absurd hemp hs'
        · exact ⟨mc', hmc'', hemp⟩

theorem merge_eq_of_length (mo : List PrettyMIDI) (op tr : ℚ) (cs : List ℚ)
    (pmap : List (String × ℤ)) (hlen : (cs.length : ℤ) = (mo.length : ℤ) - 1) :
    merge_midi_objects mo op tr (some cs) (some pmap) =
      match processDocs pmap ⟨[], 0⟩ (mo.zip (op :: cs)) with
      | .error e => .error e
      | .ok s => .ok (mergeFinalize tr s) := by
  have he : merge_midi_objects mo op tr (some cs) (some pmap) =
      if (cs.length : ℤ) ≠ (mo.length : ℤ) - 1 then .error .lengthMismatch
      else match processDocs pmap ⟨[], 0⟩ (mo.zip (op :: cs)) with
        | .error e => .error e
        | .ok s => .ok (mergeFinalize tr s) := rfl
  rw [he, if_neg (by rw [hlen]; simp)]

theorem merge_length_error (mo : List PrettyMIDI) (op tr : ℚ) (cs : List ℚ)
    (pmap : Option (List (String × ℤ)))
    (hlen : (cs.length : ℤ) ≠ (mo.length : ℤ) - 1) :
    merge_midi_objects mo op tr (some cs) pmap = .error .lengthMismatch := by
  have he : merge_midi_objects mo op tr (some cs) pmap =
      if (cs.length : ℤ) ≠ (mo.length : ℤ) - 1 then .error .lengthMismatch
      else match processDocs (pmap.getD []) ⟨[], 0⟩ (mo.zip (op :: cs)) with
        | .error e => .error e
        | .ok s => .ok (mergeFinalize tr s) := rfl
  rw [he, if_pos hlen]

theorem accFind_eq_some_iff_of_nodup (l : List Instrument)
    (hnodup : (l.map Instrument.name).Nodup) (nm : String) (i : Instrument) :
    accFind l nm = some i ↔ i ∈ l ∧ i.name = nm := by
  constructor
  · intro h
    exact ⟨List.mem_of_find?_eq_some h, name_of_accFind h⟩
  · rintro ⟨hmem, hname⟩
    rcases hfind : accFind l nm with _ | j
    · rw [accFind, List.find?_eq_none] at hfind
      have := hfind i hmem
      simp [hname] at this
    · have hj : j.name = nm := name_of_accFind hfind
      have hjm : j ∈ l := List.mem_of_find?_eq_some hfind
      have hij : i = j :=
        List.inj_on_of_nodup_map hnodup hmem hjm (by rw [hname, hj])
      exact congrArg some hij.symm

theorem accFind_perm (l l' : List Instrument) (hperm : l.Perm l')
    (hnodup : (l.map Instrument.name).Nodup) (nm : String) :
    accFind l' nm = accFind l nm := by
  have hnodup' : (l'.map Instrument.name).Nodup :=
    ((hperm.map Instrument.name).nodup_iff).mp hnodup
  rcases h : accFind l nm with _ | i
  · rw [accFind, List.find?_eq_none] at h ⊢
    intro x hx
    exact h x (hperm.mem_iff.mpr hx)
  · have hmem := (accFind_eq_some_iff_of_nodup l hnodup nm i).mp h
    exact (accFind_eq_some_iff_of_nodup l' hnodup' nm i).mpr
      ⟨hperm.mem_iff.mp hmem.1, hmem.2⟩

theorem finalizeInstrument_name (tn : Note) (tc : ControlChange) (i : Instrument) :
    (finalizeInstrument tn tc i).name = i.name := rfl

theorem trackNamed_mergeFinalize (tr : ℚ) (s : MergeState)
    (hnodup : (s.instruments.map Instrument.name).Nodup) (nm : String) :
    trackNamed (mergeFinalize tr s) nm =
      (accFind s.instruments nm).map
        (finalizeInstrument ⟨s.current_time, s.current_time + tr, 1, 0⟩
          ⟨7, 0, s.current_time + tr⟩) := by
  unfold trackNamed mergeFinalize
  have hp : ((fun i => decide (i.name = nm)) ∘
        finalizeInstrument ⟨s.current_time, s.current_time + tr, 1, 0⟩
          ⟨7, 0, s.current_time + tr⟩) =
      (fun i => decide (i.name = nm)) := by
    funext i
    simp [Function.comp, finalizeInstrument_name]
  rw [List.find?_map, hp]
  rw [show List.find? (fun i => decide (i.name = nm))
      (List.insertionSort Instrument.nameLe s.instruments) =
    accFind (List.insertionSort Instrument.nameLe s.instruments) nm from rfl]
  rw [accFind_perm s.instruments (List.insertionSort Instrument.nameLe s.instruments)
    (List.perm_insertionSort Instrument.nameLe s.instruments).symm hnodup nm]

theorem exists_fst_zip_iff {α β : Type _} (P : α → Prop) (l1 : List α) (l2 : List β)
    (h : l1.length ≤ l2.length) :
    (∃ mc ∈ l1.zip l2, P (Prod.fst mc)) ↔ ∃ m ∈ l1, P m := by
  constructor
  · rintro ⟨⟨a, b⟩, hmc, hp⟩
    exact ⟨a, (List.of_mem_zip hmc).1, hp⟩
  · rintro ⟨m, hm, hp⟩
    obtain ⟨n, hn, rfl⟩ := List.getElem_of_mem hm
    have hn2 : n < (l1.zip l2).length := by
      rw [List.length_zip]
      omega
    refine ⟨(l1.zip l2)[n], List.getElem_mem hn2, ?_⟩
    rw [List.getElem_zip]
    exact hp

theorem length_caesuras_of_valid (mo : List PrettyMIDI) (cs : List ℚ)
    (hlen : (cs.length : ℤ) = (mo.length : ℤ) - 1) :
    mo.length ≤ cs.length + 1 := by omega

/-- Master lemma: on a valid input, the fold inside `merge_midi_objects`
succeeds and its final state is fully described by the specification-side
recurrences. -/
theorem merge_valid_spec (mo : List PrettyMIDI) (op tr : ℚ) (cs : List ℚ)
    (pmap : List (String × ℤ))
    (hlen : (cs.length : ℤ) = (mo.length : ℤ) - 1)
    (hsnd : ∀ m ∈ mo, soundingNotes m ≠ [])
    (hnm : ∀ m ∈ mo, ∀ i ∈ m.instruments, i.name ≠ "") :
    ∃ s, processDocs pmap ⟨[], 0⟩ (mo.zip (op :: cs)) = .ok s ∧
      merge_midi_objects mo op tr (some cs) (some pmap) = .ok (mergeFinalize tr s) ∧
      s.current_time = advanceTime 0 (mo.zip (op :: cs)) ∧
      (∀ nm, accNotes s.instruments nm = expectedNotes nm 0 (mo.zip (op :: cs))) ∧
      (∀ nm, accCCs s.instruments nm = expectedCCs nm 0 (mo.zip (op :: cs))) ∧
      (∀ nm, accMeta s.instruments nm = docsMeta pmap nm (mo.zip (op :: cs))) ∧
      (∀ i ∈ s.instruments, i.pitch_bends = []) ∧
      (∀ nm, (accFind s.instruments nm).isSome = true ↔
        ∃ m ∈ mo, ∃ i ∈ m.instruments, i.name = nm) ∧
      (s.instruments.map Instrument.name).Nodup := by
  have hzs : ∀ mc ∈ mo.zip (op :: cs), soundingNotes (Prod.fst mc) ≠ [] := by
    rintro ⟨m, c⟩ hmc
    exact hsnd m (List.of_mem_zip hmc).1
  have hzn : ∀ mc ∈ mo.zip (op :: cs), ∀ i ∈ (Prod.fst mc).instruments, i.name ≠ "" := by
    rintro ⟨m, c⟩ hmc
    exact hnm m (List.of_mem_zip hmc).1
  obtain ⟨s, hok⟩ := processDocs_ok pmap (mo.zip (op :: cs)) ⟨[], 0⟩ hzs hzn
  obtain ⟨htime, hnotes, hccs, hmeta, hpb, hnames, hnodup⟩ :=
    processDocs_spec pmap (mo.zip (op :: cs)) ⟨[], 0⟩ s hok
  refine ⟨s, hok, ?_, ?_, ?_, ?_, ?_, ?_, ?_, ?_⟩
  · rw [merge_eq_of_length mo op tr cs pmap hlen, hok]
  · exact htime
  · intro nm
    have := hnotes nm
    simpa [accNotes, accFind] using this
  · intro nm
    have := hccs nm
    simpa [accCCs, accFind] using this
  · intro nm
    have := hmeta nm
    simpa [accMeta, accFind] using this
  · exact hpb (by intro i hi; simp at hi)
  · intro nm
    rw [hnames nm]
    have : ¬ ((accFind ([] : List Instrument) nm).isSome = true) := by
      simp [accFind]
    rw [exists_fst_zip_iff (fun m => ∃ i ∈ m.instruments, i.name = nm) mo (op :: cs)
      (by simpa using length_caesuras_of_valid mo cs hlen)]
    simp [this]
  · exact hnodup (by simp)

/-- On an input with a valid gap list and no unnamed instruments, the merge
fails with the empty-document error iff some document has no sounding
notes. -/
theorem merge_error_iff_empty (mo : List PrettyMIDI) (op tr : ℚ) (cs : List ℚ)
    (pmap : List (String × ℤ))
    (hlen : (cs.length : ℤ) = (mo.length : ℤ) - 1)
    (hnm : ∀ m ∈ mo, ∀ i ∈ m.instruments, i.name ≠ "") :
    (merge_midi_objects mo op tr (some cs) (some pmap) = .error .emptyDocument ↔
      ∃ m ∈ mo, soundingNotes m = []) := by
  have hzn : ∀ mc ∈ mo.zip (op :: cs), ∀ i ∈ (Prod.fst mc).instruments, i.name ≠ "" := by
    rintro ⟨m, c⟩ hmc
    exact hnm m (List.of_mem_zip hmc).1
  have hiff := processDocs_error_iff pmap (mo.zip (op :: cs)) ⟨[], 0⟩ hzn
  have hbridge := exists_fst_zip_iff (fun m => soundingNotes m = []) mo (op :: cs)
    (by simpa using length_caesuras_of_valid mo cs hlen)
  rw [merge_eq_of_length mo op tr cs pmap hlen]
  rcases hpd : processDocs pmap ⟨[], 0⟩ (mo.zip (op :: cs)) with e | s
  · by_cases he : e = .emptyDocument
    · subst he
      constructor
      · intro _
        exact hbridge.mp (hiff.mp hpd)
      · intro _
        rfl
    · constructor
      · intro h
        simp only [Except.error.injEq] at h
        exact absurd h he
      · intro h
        have h2 := hiff.mpr (hbridge.mpr h)
        rw [hpd] at h2
        simp only [Except.error.injEq] at h2
        exact absurd h2 he
  · constructor
    · intro h
      simp at h
    · intro h
      have h2 := hiff.mpr (hbridge.mpr h)
      rw [hpd] at h2
      simp at h2

theorem merge_lead_scenario :
    merge_midi_objects [leadDoc, leadDoc] 0 0 (some [1/2]) none = .ok leadMerged := by
  have h1 : (("lead" : String) = "") ↔ False := by simp
  norm_num [leadDoc, leadMerged, merge_midi_objects, processDocs, processDoc,
    processInstruments, addInstrument,
    updInst, mkOutputInstrument, soundingNotes, docStart, docEnd, shiftNote, shiftCC,
    mergeFinalize, finalizeInstrument, min_def, max_def, Note.keyLe, Instrument.nameLe, h1]

/-- Claim C1: for every valid merge input (gap count equals number of
documents minus one, every document contains at least one sounding note,
all instrument names non-empty), merge places each document on the common
timeline via the shift `current_time + gap - doc_start`, with
`current_time` starting at 0 and advancing by `(doc_end - doc_start) + gap`
after each document (the placement is captured by `expectedNotes` /
`advanceTime`, which implement exactly that recurrence); in particular,
merging two copies of `leadDoc` with gap `1/2` and zero opening and
trailing silence yields a "lead" track with notes at `(0,1)` and
`(3/2,5/2)` plus a trailing zero-velocity marker note at `(5/2,5/2)`. -/
theorem C1_merge_places_documents_by_shift :
    (∀ (mo : List PrettyMIDI) (op tr : ℚ) (cs : List ℚ) (pmap : List (String × ℤ)),
      (cs.length : ℤ) = (mo.length : ℤ) - 1 →
      (∀ m ∈ mo, soundingNotes m ≠ []) →
      (∀ m ∈ mo, ∀ i ∈ m.instruments, i.name ≠ "") →
      ∃ out, merge_midi_objects mo op tr (some cs) (some pmap) = .ok out ∧
        ∀ nm i, trackNamed out nm = some i →
          i.notes = List.insertionSort Note.keyLe
              (expectedNotes nm 0 (mo.zip (op :: cs))) ++
            [⟨advanceTime 0 (mo.zip (op :: cs)),
              advanceTime 0 (mo.zip (op :: cs)) + tr, 1, 0⟩]) ∧
    merge_midi_objects [leadDoc, leadDoc] 0 0 (some [1/2]) none = .ok leadMerged := by
  constructor
  · intro mo op tr cs pmap hlen hsnd hnm
    obtain ⟨s, hok, hmerge, htime, hnotes, hccs, hmeta, hpb, hnamesiff, hnodup⟩ :=
      merge_valid_spec mo op tr cs pmap hlen hsnd hnm
    refine ⟨mergeFinalize tr s, hmerge, ?_⟩
    intro nm i hi
    rw [trackNamed_mergeFinalize tr s hnodup nm] at hi
    rcases hj : accFind s.instruments nm with _ | j
    · rw [hj] at hi
      simp at hi
    · rw [hj] at hi
      simp only [Option.map_some'] at hi
      have hjnotes : j.notes = expectedNotes nm 0 (mo.zip (op :: cs)) := by
        have := hnotes nm
        rw [accNotes, hj] at this
        simpa using this
      have hieq := Option.some.inj hi
      rw [← hieq]
      show List.insertionSort Note.keyLe j.notes ++ _ = _
      rw [hjnotes, htime]
  · exact merge_lead_scenario

/-- Witness for C1: the general part applied to the one-document input
`[leadDoc]` with an empty gap list. -/
theorem C1_witness :
    ∃ out, merge_midi_objects [leadDoc] 0 0 (some []) (some []) = .ok out ∧
      ∀ nm i, trackNamed out nm = some i →
        i.notes = List.insertionSort Note.keyLe
            (expectedNotes nm 0 ([leadDoc].zip [(0 : ℚ)])) ++
          [⟨advanceTime 0 ([leadDoc].zip [(0 : ℚ)]),
            advanceTime 0 ([leadDoc].zip [(0 : ℚ)]) + 0, 1, 0⟩] :=
  C1_merge_places_documents_by_shift.1 [leadDoc] 0 0 [] []
    (by simp)
    (by
      intro m hm
      rcases List.mem_singleton.mp hm with rfl
      simp [soundingNotes, leadDoc])
    (by
      intro m hm i hi
      rcases List.mem_singleton.mp hm with rfl
      rcases List.mem_singleton.mp hi with rfl
      simp)

/-- Counterexample to claim C2: the input document `pbDoc` carries one
pitch-bend event, but the merged output track carries none — the merge loop
copies notes and control changes only, so pitch bends are not carried into
the output. -/
theorem C2_counterexample :
    pbDoc.instruments.map Instrument.pitch_bends = [[⟨100, 1/2⟩]] ∧
    (merge_midi_objects [pbDoc] 0 0 none none).map
      (fun p => p.instruments.map Instrument.pitch_bends) = .ok [[]] := by
  constructor
  · rfl
  · have h1 : (("a" : String) = "") ↔ False := by simp
    norm_num [pbDoc, merge_midi_objects, processDocs, processDoc,
      processInstruments, addInstrument, updInst, mkOutputInstrument, soundingNotes,
      docStart, docEnd, shiftNote, shiftCC, mergeFinalize, finalizeInstrument,
      min_def, max_def, Except.map, h1]

/-- Claim C2 (amended): for every valid merge input, pitch-bend events are
not carried into the output — every output track's pitch-bend list is
empty — while every control event is carried into the corresponding output
track with its time increased by that document's shift, regardless of the
velocity filter applied to notes (followed by the trailing control-change
marker). -/
theorem C2_amended_pitch_bends_dropped :
    ∀ (mo : List PrettyMIDI) (op tr : ℚ) (cs : List ℚ) (pmap : List (String × ℤ)),
      (cs.length : ℤ) = (mo.length : ℤ) - 1 →
      (∀ m ∈ mo, soundingNotes m ≠ []) →
      (∀ m ∈ mo, ∀ i ∈ m.instruments, i.name ≠ "") →
      ∃ out, merge_midi_objects mo op tr (some cs) (some pmap) = .ok out ∧
        (∀ i ∈ out.instruments, i.pitch_bends = []) ∧
        (∀ nm i, trackNamed out nm = some i →
          i.control_changes = expectedCCs nm 0 (mo.zip (op :: cs)) ++
            [⟨7, 0, advanceTime 0 (mo.zip (op :: cs)) + tr⟩]) := by
  intro mo op tr cs pmap hlen hsnd hnm
  obtain ⟨s, hok, hmerge, htime, hnotes, hccs, hmeta, hpb, hnamesiff, hnodup⟩ :=
    merge_valid_spec mo op tr cs pmap hlen hsnd hnm
  refine ⟨mergeFinalize tr s, hmerge, ?_, ?_⟩
  · intro i hi
    unfold mergeFinalize at hi
    rcases List.mem_map.mp hi with ⟨j, hj, rfl⟩
    have hjs : j ∈ s.instruments :=
      (List.perm_insertionSort Instrument.nameLe s.instruments).mem_iff.mp hj
    exact hpb j hjs
  · intro nm i hi
    rw [trackNamed_mergeFinalize tr s hnodup nm] at hi
    rcases hj : accFind s.instruments nm with _ | j
    · rw [hj] at hi
      simp at hi
    · rw [hj] at hi
      simp only [Option.map_some'] at hi
      have hjccs : j.control_changes = expectedCCs nm 0 (mo.zip (op :: cs)) := by
        have := hccs nm
        rw [accCCs, hj] at this
        simpa using this
      have hieq := Option.some.inj hi
      rw [← hieq]
      show j.control_changes ++ _ = _
      rw [hjccs, htime]

/-- Witness for the amended C2, at the one-document input `[pbDoc]`. -/
theorem C2_witness :
    ∃ out, merge_midi_objects [pbDoc] 0 0 (some []) (some []) = .ok out ∧
      (∀ i ∈ out.instruments, i.pitch_bends = []) ∧
      (∀ nm i, trackNamed out nm = some i →
        i.control_changes = expectedCCs nm 0 ([pbDoc].zip [(0 : ℚ)]) ++
          [⟨7, 0, advanceTime 0 ([pbDoc].zip [(0 : ℚ)]) + 0⟩]) :=
  C2_amended_pitch_bends_dropped [pbDoc] 0 0 [] []
    (by simp)
    (by
      intro m hm
      rcases List.mem_singleton.mp hm with rfl
      simp [soundingNotes, pbDoc])
    (by
      intro m hm i hi
      rcases List.mem_singleton.mp hm with rfl
      rcases List.mem_singleton.mp hi with rfl
      simp)

/-- Claim C7: merge fails with the empty-document error if and only if some
input document has zero notes with `velocity > 0` (no sounding notes from
which to compute that document's shift); stated for inputs that pass the
other merge preconditions (valid gap count, no unnamed instruments), which
the code checks in an order that would otherwise preempt this error. -/
theorem C7_empty_document_iff :
    ∀ (mo : List PrettyMIDI) (op tr : ℚ) (cs : List ℚ) (pmap : List (String × ℤ)),
      (cs.length : ℤ) = (mo.length : ℤ) - 1 →
      (∀ m ∈ mo, ∀ i ∈ m.instruments, i.name ≠ "") →
      (merge_midi_objects mo op tr (some cs) (some pmap) = .error .emptyDocument ↔
        ∃ m ∈ mo, soundingNotes m = []) :=
  fun mo op tr cs pmap hlen hnm => merge_error_iff_empty mo op tr cs pmap hlen hnm

/-- Witness for C7, at the one-document input `[emptyDoc]`. -/
theorem C7_witness :
    (merge_midi_objects [emptyDoc] 0 0 (some []) (some []) = .error .emptyDocument ↔
      ∃ m ∈ [emptyDoc], soundingNotes m = []) :=
  C7_empty_document_iff [emptyDoc] 0 0 [] []
    (by simp)
    (by
      intro m hm i hi
      rcases List.mem_singleton.mp hm with rfl
      simp [emptyDoc] at hi)

theorem metaOf_append (pmap : List (String × ℤ)) (l1 l2 : List Instrument) (nm : String) :
    metaOf pmap (l1 ++ l2) nm = (metaOf pmap l1 nm).or (metaOf pmap l2 nm) := by
  unfold metaOf
  rw [List.find?_append]
  rcases h : l1.find? (fun i => i.name = nm) with _ | a <;> simp [h]

theorem docsMeta_flatten (pmap : List (String × ℤ)) (nm : String) :
    ∀ l : List (PrettyMIDI × ℚ),
      docsMeta pmap nm l =
        metaOf pmap ((l.map (fun mc => (Prod.fst mc).instruments)).flatten) nm := by
  intro l
  induction l with
  | nil => rfl
  | cons mc rest ih =>
    obtain ⟨m, c⟩ := mc
    show (metaOf pmap m.instruments nm).or (docsMeta pmap nm rest) = _
    rw [ih, List.map_cons, List.flatten_cons, metaOf_append]

theorem docsMeta_eq_firstNamed (pmap : List (String × ℤ)) (mo : List PrettyMIDI)
    (gaps : List ℚ) (h : mo.length ≤ gaps.length) (nm : String) :
    docsMeta pmap nm (mo.zip gaps) =
      (firstNamedInstrument mo nm).map
        (fun j => ((mkOutputInstrument pmap j).program, j.is_drum)) := by
  rw [docsMeta_flatten]
  have hmaps : (mo.zip gaps).map (fun mc => (Prod.fst mc).instruments) =
      mo.map PrettyMIDI.instruments := by
    have h1 : (mo.zip gaps).map (fun mc => (Prod.fst mc).instruments) =
        ((mo.zip gaps).map Prod.fst).map PrettyMIDI.instruments := by
      rw [List.map_map]
      rfl
    rw [h1, List.map_fst_zip mo gaps h]
  rw [hmaps]
  rfl

/-- Counterexample to claim C8: the name "lead" is mapped to program 0 by
`program_map`, yet the output track carries program 5 (the program of the
first occurrence) because Python's `get(name) or program` treats a looked-up
0 as falsy. -/
theorem C8_counterexample :
    List.lookup "lead" [("lead", (0 : ℤ))] = some 0 ∧
    (merge_midi_objects [mappedZeroDoc] 0 0 none (some [("lead", 0)])).map
      (fun p => p.instruments.map Instrument.program) = .ok [5] ∧
    (5 : ℤ) ≠ 0 := by
  refine ⟨rfl, ?_, by decide⟩
  have h1 : (("lead" : String) = "") ↔ False := by simp
  norm_num [mappedZeroDoc, merge_midi_objects, processDocs, processDoc,
    processInstruments, addInstrument, updInst, mkOutputInstrument, soundingNotes,
    docStart, docEnd, shiftNote, shiftCC, mergeFinalize, finalizeInstrument,
    min_def, max_def, Except.map, List.lookup, h1]

/-- Claim C8 (amended): for every valid merge input, the program of an
output track is determined by its name's first occurrence together with
`program_map`, except that a mapped value of 0 is ignored: a track whose
name maps to a non-zero program `p` carries `p`; a track whose name is
absent from the map — or maps to 0 — keeps the program of its first
occurrence (and the drum flag always comes from the first occurrence). -/
theorem C8_amended_program_zero_ignored :
    ∀ (mo : List PrettyMIDI) (op tr : ℚ) (cs : List ℚ) (pmap : List (String × ℤ)),
      (cs.length : ℤ) = (mo.length : ℤ) - 1 →
      (∀ m ∈ mo, soundingNotes m ≠ []) →
      (∀ m ∈ mo, ∀ i ∈ m.instruments, i.name ≠ "") →
      ∃ out, merge_midi_objects mo op tr (some cs) (some pmap) = .ok out ∧
        ∀ nm i, trackNamed out nm = some i →
          ∃ j, firstNamedInstrument mo nm = some j ∧
            i.program = (match pmap.lookup nm with
              | some p => if p = 0 then j.program else p
              | none => j.program) ∧
            i.is_drum = j.is_drum := by
  intro mo op tr cs pmap hlen hsnd hnm
  obtain ⟨s, hok, hmerge, htime, hnotes, hccs, hmeta, hpb, hnamesiff, hnodup⟩ :=
    merge_valid_spec mo op tr cs pmap hlen hsnd hnm
  refine ⟨mergeFinalize tr s, hmerge, ?_⟩
  intro nm i hi
  rw [trackNamed_mergeFinalize tr s hnodup nm] at hi
  rcases hj : accFind s.instruments nm with _ | j0
  · rw [hj] at hi
    simp at hi
  · rw [hj] at hi
    simp only [Option.map_some'] at hi
    have hieq := Option.some.inj hi
    have hm := hmeta nm
    rw [accMeta, hj, docsMeta_eq_firstNamed pmap mo (op :: cs)
      (by simpa using length_caesuras_of_valid mo cs hlen) nm] at hm
    rcases hf : firstNamedInstrument mo nm with _ | j
    · rw [hf] at hm
      simp at hm
    · rw [hf] at hm
      simp only [Option.map_some'] at hm
      have hpair := Option.some.inj hm
      have hjn : j.name = nm := by
        have := List.find?_some hf
        simpa using this
      refine ⟨j, rfl, ?_, ?_⟩
      · have hprog : i.program = j0.program := by rw [← hieq]; rfl
        rw [hprog, show j0.program = (mkOutputInstrument pmap j).program from
          congrArg Prod.fst hpair]
        show (match pmap.lookup j.name with
          | some p => if p = 0 then j.program else p
          | none => j.program) = _
        rw [hjn]
      · have hdrum : i.is_drum = j0.is_drum := by rw [← hieq]; rfl
        rw [hdrum, show j0.is_drum = j.is_drum from congrArg Prod.snd hpair]

/-- Witness for the amended C8, at the input `[mappedZeroDoc]` with "lead"
mapped to program 0. -/
theorem C8_witness :
    ∃ out, merge_midi_objects [mappedZeroDoc] 0 0 (some []) (some [("lead", 0)]) =
        .ok out ∧
      ∀ nm i, trackNamed out nm = some i →
        ∃ j, firstNamedInstrument [mappedZeroDoc] nm = some j ∧
          i.program = (match List.lookup nm [("lead", (0 : ℤ))] with
            | some p => if p = 0 then j.program else p
            | none => j.program) ∧
          i.is_drum = j.is_drum :=
  C8_amended_program_zero_ignored [mappedZeroDoc] 0 0 [] [("lead", 0)]
    (by simp)
    (by
      intro m hm
      rcases List.mem_singleton.mp hm with rfl
      simp [soundingNotes, mappedZeroDoc])
    (by
      intro m hm i hi
      rcases List.mem_singleton.mp hm with rfl
      rcases List.mem_singleton.mp hi with rfl
      simp)

/-- Counterexample to claim C6: merging `zeroLenDoc` (whose track has a
zero-length sounding note at the document end) yields a note sequence that
is NOT sorted by `(start, pitch)` once the trailing silence marker has been
appended: the marker (start 1, pitch 1) follows the note (start 1, pitch
60).  The code sorts the notes first and appends the marker afterwards. -/
theorem C6_counterexample :
    (merge_midi_objects [zeroLenDoc] 0 0 none none).map
      (fun p => p.instruments.map Instrument.notes) =
      .ok [[⟨0, 1, 60, 80⟩, ⟨1, 1, 60, 80⟩, ⟨1, 1, 1, 0⟩]] ∧
    ¬ ([⟨0, 1, 60, 80⟩, ⟨1, 1, 60, 80⟩, ⟨(1 : ℚ), 1, 1, 0⟩] : List Note).Pairwise
        Note.keyLe := by
  constructor
  · have h1 : (("a" : String) = "") ↔ False := by simp
    norm_num [zeroLenDoc, merge_midi_objects, processDocs, processDoc,
      processInstruments, addInstrument, updInst, mkOutputInstrument, soundingNotes,
      docStart, docEnd, shiftNote, shiftCC, mergeFinalize, finalizeInstrument,
      min_def, max_def, Except.map, Note.keyLe, List.insertionSort,
      List.orderedInsert, h1]
  · intro h
    have h2 := (List.pairwise_cons.mp (List.pairwise_cons.mp h).2).1
      ⟨(1 : ℚ), 1, 1, 0⟩ (by simp)
    rcases h2 with hlt | ⟨heq, hle⟩
    · exact absurd hlt (lt_irrefl _)
    · exact absurd hle (by decide)

/-- Claim C6 (amended): for every valid merge input, the output contains
exactly one track per distinct input instrument name (its name set is the
union of the input names and has no duplicates), tracks are emitted sorted
by name, and within every output track the notes are sorted by
`(start, pitch)` BEFORE the trailing-silence marker is appended: the note
list is the sorted merge of the placed notes followed by the marker as its
last element, and the sequence including the marker need not be sorted. -/
theorem C6_amended_sorted_before_marker :
    ∀ (mo : List PrettyMIDI) (op tr : ℚ) (cs : List ℚ) (pmap : List (String × ℤ)),
      (cs.length : ℤ) = (mo.length : ℤ) - 1 →
      (∀ m ∈ mo, soundingNotes m ≠ []) →
      (∀ m ∈ mo, ∀ i ∈ m.instruments, i.name ≠ "") →
      ∃ out, merge_midi_objects mo op tr (some cs) (some pmap) = .ok out ∧
        (out.instruments.map Instrument.name).Nodup ∧
        (∀ nm, (∃ i ∈ out.instruments, i.name = nm) ↔
          ∃ m ∈ mo, ∃ i ∈ m.instruments, i.name = nm) ∧
        List.Sorted Instrument.nameLe out.instruments ∧
        (∀ i ∈ out.instruments,
          List.Sorted Note.keyLe i.notes.dropLast ∧
          i.notes.getLast? = some ⟨advanceTime 0 (mo.zip (op :: cs)),
            advanceTime 0 (mo.zip (op :: cs)) + tr, 1, 0⟩) := by
  intro mo op tr cs pmap hlen hsnd hnm
  obtain ⟨s, hok, hmerge, htime, hnotes, hccs, hmeta, hpb, hnamesiff, hnodup⟩ :=
    merge_valid_spec mo op tr cs pmap hlen hsnd hnm
  have hperm : (List.insertionSort Instrument.nameLe s.instruments).Perm s.instruments :=
    List.perm_insertionSort Instrument.nameLe s.instruments
  have houtnames : (mergeFinalize tr s).instruments.map Instrument.name =
      (List.insertionSort Instrument.nameLe s.instruments).map Instrument.name := by
    unfold mergeFinalize
    rw [List.map_map]
    apply List.map_congr_left
    intro i _
    simp [Function.comp, finalizeInstrument_name]
  refine ⟨mergeFinalize tr s, hmerge, ?_, ?_, ?_, ?_⟩
  · rw [houtnames]
    exact ((hperm.map Instrument.name).nodup_iff).mpr hnodup
  · intro nm
    rw [← hnamesiff nm]
    constructor
    · rintro ⟨i, hi, hni⟩
      unfold mergeFinalize at hi
      rcases List.mem_map.mp hi with ⟨j, hj, rfl⟩
      have hjs : j ∈ s.instruments := hperm.mem_iff.mp hj
      rw [accFind, List.find?_isSome]
      exact ⟨j, hjs, by simpa [finalizeInstrument_name] using hni⟩
    · intro hsome
      rw [accFind, List.find?_isSome] at hsome
      rcases hsome with ⟨j, hjs, hjn⟩
      refine ⟨finalizeInstrument ⟨s.current_time, s.current_time + tr, 1, 0⟩
        ⟨7, 0, s.current_time + tr⟩ j, ?_, by simpa [finalizeInstrument_name] using hjn⟩
      unfold mergeFinalize
      exact List.mem_map.mpr ⟨j, hperm.mem_iff.mpr hjs, rfl⟩
  · unfold mergeFinalize
    have hsorted := List.sorted_insertionSort Instrument.nameLe s.instruments
    exact hsorted.map _ (fun a b hab => hab)
  · intro i hi
    unfold mergeFinalize at hi
    rcases List.mem_map.mp hi with ⟨j, hj, rfl⟩
    constructor
    · show List.Sorted Note.keyLe
        ((List.insertionSort Note.keyLe j.notes ++ [_]).dropLast)
      rw [List.dropLast_concat]
      exact List.sorted_insertionSort Note.keyLe j.notes
    · show (List.insertionSort Note.keyLe j.notes ++ [_]).getLast? = _
      rw [List.getLast?_concat, htime]

/-- Witness for the amended C6, at the two-document input used by the C1
scenario. -/
theorem C6_witness :
    ∃ out, merge_midi_objects [leadDoc, leadDoc] 0 0 (some [1/2]) (some []) = .ok out ∧
      (out.instruments.map Instrument.name).Nodup ∧
      (∀ nm, (∃ i ∈ out.instruments, i.name = nm) ↔
        ∃ m ∈ [leadDoc, leadDoc], ∃ i ∈ m.instruments, i.name = nm) ∧
      List.Sorted Instrument.nameLe out.instruments ∧
      (∀ i ∈ out.instruments,
        List.Sorted Note.keyLe i.notes.dropLast ∧
        i.notes.getLast? = some ⟨advanceTime 0 ([leadDoc, leadDoc].zip [0, 1/2]),
          advanceTime 0 ([leadDoc, leadDoc].zip [(0 : ℚ), 1/2]) + 0, 1, 0⟩) :=
  C6_amended_sorted_before_marker [leadDoc, leadDoc] 0 0 [1/2] []
    (by simp)
    (by
      intro m hm
      rcases List.mem_cons.mp hm with rfl | hm'
      · simp [soundingNotes, leadDoc]
      · rcases List.mem_singleton.mp hm' with rfl
        simp [soundingNotes, leadDoc])
    (by
      intro m hm i hi
      rcases List.mem_cons.mp hm with rfl | hm'
      · rcases List.mem_singleton.mp hi with rfl
        simp
      · rcases List.mem_singleton.mp hm' with rfl
        rcases List.mem_singleton.mp hi with rfl
        simp)

theorem sum_two_sounds_nil_left (x : Signal) : sum_two_sounds [] x = x := by
  cases x <;> rfl

theorem sum_two_sounds_nil_right (x : Signal) : sum_two_sounds x [] = x := by
  cases x <;> rfl

theorem sum_two_sounds_comm : ∀ a b : Signal, sum_two_sounds a b = sum_two_sounds b a
  | [], b => by rw [sum_two_sounds_nil_left, sum_two_sounds_nil_right]
  | a :: as, [] => rfl
  | a :: as, b :: bs => by
    show (a.1 + b.1, a.2 + b.2) :: sum_two_sounds as bs =
      (b.1 + a.1, b.2 + a.2) :: sum_two_sounds bs as
    rw [sum_two_sounds_comm as bs, add_comm a.1, add_comm a.2]

theorem sum_two_sounds_assoc : ∀ a b c : Signal,
    sum_two_sounds (sum_two_sounds a b) c = sum_two_sounds a (sum_two_sounds b c)
  | [], b, c => by rw [sum_two_sounds_nil_left, sum_two_sounds_nil_left]
  | a :: as, [], c => by rw [sum_two_sounds_nil_right, sum_two_sounds_nil_left]
  | a :: as, b :: bs, [] => by rw [sum_two_sounds_nil_right, sum_two_sounds_nil_right]
  | a :: as, b :: bs, c :: cs => by
    show (a.1 + b.1 + c.1, a.2 + b.2 + c.2) :: sum_two_sounds (sum_two_sounds as bs) cs =
      (a.1 + (b.1 + c.1), a.2 + (b.2 + c.2)) :: sum_two_sounds as (sum_two_sounds bs cs)
    rw [sum_two_sounds_assoc as bs cs, add_assoc, add_assoc]

theorem sum_two_sounds_length : ∀ a b : Signal,
    (sum_two_sounds a b).length = max a.length b.length
  | [], b => by rw [sum_two_sounds_nil_left]; simp
  | a :: as, [] => by rw [sum_two_sounds_nil_right]; simp
  | a :: as, b :: bs => by
    show ((a.1 + b.1, a.2 + b.2) :: sum_two_sounds as bs).length = _
    simp [sum_two_sounds_length as bs, Nat.succ_max_succ]

theorem sum_two_sounds_right_comm (a x y : Signal) :
    sum_two_sounds (sum_two_sounds a x) y = sum_two_sounds (sum_two_sounds a y) x := by
  rw [sum_two_sounds_assoc, sum_two_sounds_assoc, sum_two_sounds_comm x y]

theorem foldl_sum_two_sounds_perm {β : Type _} (f : β → Signal) {l l' : List β}
    (h : l.Perm l') :
    ∀ acc, l.foldl (fun a x => sum_two_sounds a (f x)) acc =
      l'.foldl (fun a x => sum_two_sounds a (f x)) acc := by
  induction h with
  | nil => intro acc; rfl
  | cons x h ih =>
    intro acc
    simp only [List.foldl_cons]
    exact ih _
  | swap x y l =>
    intro acc
    simp only [List.foldl_cons]
    rw [sum_two_sounds_right_comm]
  | trans h1 h2 ih1 ih2 =>
    intro acc
    rw [ih1, ih2]

/-- Claim C9: the variable-length two-operand signal summation used by mix
is commutative and associative per sample, the zero-length signal is its
identity element on both sides, and consequently the per-sample content of
a group's accumulator does not depend on the order in which that group's
tracks are folded.  (Samples are exact rationals here, so "up to
floating-point summation order" sharpens to exact equality.) -/
theorem C9_sum_commutative_monoid :
    (∀ a b : Signal, sum_two_sounds a b = sum_two_sounds b a) ∧
    (∀ a b c : Signal,
      sum_two_sounds (sum_two_sounds a b) c = sum_two_sounds a (sum_two_sounds b c)) ∧
    (∀ x : Signal, sum_two_sounds [] x = x ∧ sum_two_sounds x [] = x) ∧
    (∀ (fr : ℕ) (gd gd' : List (Track × ℚ)), gd.Perm gd' →
      gd.foldl (fun acc tg => sum_two_sounds acc (placedTrack fr tg.1 tg.2)) [] =
      gd'.foldl (fun acc tg => sum_two_sounds acc (placedTrack fr tg.1 tg.2)) []) := by
  refine ⟨sum_two_sounds_comm, sum_two_sounds_assoc, ?_, ?_⟩
  · exact fun x => ⟨sum_two_sounds_nil_left x, sum_two_sounds_nil_right x⟩
  · intro fr gd gd' h
    exact foldl_sum_two_sounds_perm (fun tg => placedTrack fr tg.1 tg.2) h []

/-- Witness for C9: the fold-order part applied to a concrete two-element
group and its transposition. -/
theorem C9_witness :
    [(oneSampleTrack, (1 : ℚ)), (oneSampleTrack, 2)].foldl
      (fun acc tg => sum_two_sounds acc (placedTrack 1 tg.1 tg.2)) [] =
    [(oneSampleTrack, (2 : ℚ)), (oneSampleTrack, 1)].foldl
      (fun acc tg => sum_two_sounds acc (placedTrack 1 tg.1 tg.2)) [] :=
  C9_sum_commutative_monoid.2.2.2 1
    [(oneSampleTrack, 1), (oneSampleTrack, 2)]
    [(oneSampleTrack, 2), (oneSampleTrack, 1)]
    (List.Perm.swap (oneSampleTrack, 2) (oneSampleTrack, 1) [])

/-- Claim C10: if `grouped_track_indices` is a non-empty list in which
every group is empty, the flattened index list is empty — so no index
violates the integrality or range constraints — yet mix raises an error
during index validation (Python's `min()` on the empty flattened list). -/
theorem C10_empty_groups_raise :
    ∀ (tracks : List Track) (fr : ℕ) (o t : ℚ) (gs : List (List ℚ)),
      gs ≠ [] → (∀ g ∈ gs, g = []) →
      gs.flatten = [] ∧
      Project.mix tracks fr none o t (some gs) = .error .emptyIndexList := by
  intro tracks fr o t gs hne hall
  have hflat : gs.flatten = [] := by
    rw [List.flatten_eq_nil_iff]
    exact hall
  refine ⟨hflat, ?_⟩
  obtain ⟨g0, gr, rfl⟩ : ∃ g0 gr, gs = g0 :: gr := by
    rcases gs with _ | ⟨g0, gr⟩
    · exact absurd rfl hne
    · exact ⟨g0, gr, rfl⟩
  unfold Project.mix
  rw [if_neg (by simp [effectiveGains])]
  show mixGroups tracks fr _ o t (g0 :: gr) = _
  unfold mixGroups
  rw [hflat]
  rfl

/-- Witness for C10: a concrete instance with no tracks and one empty
group. -/
theorem C10_witness :
    ([[]] : List (List ℚ)).flatten = [] ∧
    Project.mix [] 1 none 0 0 (some [[]]) = .error .emptyIndexList :=
  C10_empty_groups_raise [] 1 0 0 [[]]
    (by simp)
    (by intro g hg; simpa using hg)

theorem rat_min?_spec (l : List ℚ) (lo : ℚ) (h : l.min? = some lo) :
    lo ∈ l ∧ ∀ x ∈ l, lo ≤ x := by
  haveI : Std.Antisymm (fun x1 x2 : ℚ => x1 ≤ x2) := ⟨fun h1 h2 => le_antisymm h1 h2⟩
  rw [List.min?_eq_some_iff (fun a => le_refl a) (fun a b => min_choice a b)
    (fun a b c => le_min_iff)] at h
  exact h

theorem rat_max?_spec (l : List ℚ) (hi : ℚ) (h : l.max? = some hi) :
    hi ∈ l ∧ ∀ x ∈ l, x ≤ hi := by
  haveI : Std.Antisymm (fun x1 x2 : ℚ => x1 ≤ x2) := ⟨fun h1 h2 => le_antisymm h1 h2⟩
  rw [List.max?_eq_some_iff (fun a => le_refl a) (fun a b => max_choice a b)
    (fun a b c => max_le_iff)] at h
  exact h

theorem pyRound_intCast (n : ℤ) : pyRound (n : ℚ) = n := by
  unfold pyRound
  rw [Int.floor_intCast]
  norm_num

theorem cast_pyRound_eq_iff (q : ℚ) : ((pyRound q : ℤ) : ℚ) = q ↔ q.den = 1 := by
  constructor
  · intro h
    rw [← h]
    exact Rat.den_intCast _
  · intro h
    have hq : (q.num : ℚ) = q := (Rat.den_eq_one_iff q).mp h
    rw [← hq, pyRound_intCast]

theorem effectiveGains_length (tracks : List Track) :
    (effectiveGains tracks none).length = tracks.length ∧
    (effectiveGains tracks (some [])).length = tracks.length := by
  constructor <;> simp [effectiveGains]

theorem effectiveGains_some_of_ne (tracks : List Track) (gl : List ℚ) (h : gl ≠ []) :
    effectiveGains tracks (some gl) = gl := by
  rcases gl with _ | ⟨g, gl⟩
  · exact absurd rfl h
  · rfl

theorem effectiveGroups_some_of_ne (tracks : List Track) (gs : List (List ℚ)) (h : gs ≠ []) :
    effectiveGroups tracks (some gs) = gs := by
  rcases gs with _ | ⟨g, gs⟩
  · exact absurd rfl h
  · rfl

theorem mix_eq_mixGroups (tracks : List Track) (fr : ℕ) (gains_arg : Option (List ℚ))
    (o t : ℚ) (ga : Option (List (List ℚ)))
    (hlen : (effectiveGains tracks gains_arg).length = tracks.length) :
    Project.mix tracks fr gains_arg o t ga =
      mixGroups tracks fr (effectiveGains tracks gains_arg) o t
        (effectiveGroups tracks ga) := by
  unfold Project.mix
  rw [if_neg (fun hc => hc hlen)]

theorem mix_shape_error (tracks : List Track) (fr : ℕ) (gains_arg : Option (List ℚ))
    (o t : ℚ) (ga : Option (List (List ℚ)))
    (hlen : (effectiveGains tracks gains_arg).length ≠ tracks.length) :
    Project.mix tracks fr gains_arg o t ga = .error .shapeMismatch := by
  unfold Project.mix
  rw [if_pos hlen]

theorem mixGroups_nonInteger (tracks : List Track) (fr : ℕ) (gains : List ℚ)
    (o t : ℚ) (grouped : List (List ℚ))
    (h : grouped.flatten.any (fun q => q ≠ (pyRound q : ℚ)) = true) :
    mixGroups tracks fr gains o t grouped = .error .nonIntegerIndex := by
  unfold mixGroups
  rw [if_pos h]

theorem mixGroups_outOfRange (tracks : List Track) (fr : ℕ) (gains : List ℚ)
    (o t : ℚ) (grouped : List (List ℚ)) (lo hi : ℚ)
    (hany : grouped.flatten.any (fun q => q ≠ (pyRound q : ℚ)) = false)
    (hlo : grouped.flatten.min? = some lo) (hhi : grouped.flatten.max? = some hi)
    (hrange : lo < -(tracks.length : ℚ) ∨ (tracks.length : ℚ) ≤ hi) :
    mixGroups tracks fr gains o t grouped = .error .indexOutOfRange := by
  unfold mixGroups
  simp only [hany, Bool.false_eq_true, if_false, hlo, hhi]
  rw [if_pos hrange]

theorem mixGroups_ok (tracks : List Track) (fr : ℕ) (gains : List ℚ)
    (o t : ℚ) (grouped : List (List ℚ)) (lo hi : ℚ) (gds : List (List (Track × ℚ)))
    (hany : grouped.flatten.any (fun q => q ≠ (pyRound q : ℚ)) = false)
    (hlo : grouped.flatten.min? = some lo) (hhi : grouped.flatten.max? = some hi)
    (hrange : ¬ (lo < -(tracks.length : ℚ) ∨ (tracks.length : ℚ) ≤ hi))
    (hres : grouped.mapM (resolveGroup tracks gains) = some gds)
    (hneg : ¬ ((∃ tg ∈ gds.flatten, pyRound ((fr : ℚ) * tg.1.start_time) < 0) ∨
      pyRound ((fr : ℚ) * o) < 0 ∨ pyRound ((fr : ℚ) * t) < 0)) :
    mixGroups tracks fr gains o t grouped = .ok (stackGroups fr o t gds) := by
  unfold mixGroups
  simp only [hany, Bool.false_eq_true, if_false, hlo, hhi]
  rw [if_neg hrange, hres]
  show (if (∃ tg ∈ gds.flatten, pyRound ((fr : ℚ) * tg.1.start_time) < 0) ∨
      pyRound ((fr : ℚ) * o) < 0 ∨ pyRound ((fr : ℚ) * t) < 0 then
      (.error .negativeDimension : Except MixError (List (List ℚ)))
    else .ok (stackGroups fr o t gds)) = .ok (stackGroups fr o t gds)
  rw [if_neg hneg]

theorem mixGroups_negative (tracks : List Track) (fr : ℕ) (gains : List ℚ)
    (o t : ℚ) (grouped : List (List ℚ)) (lo hi : ℚ) (gds : List (List (Track × ℚ)))
    (hany : grouped.flatten.any (fun q => q ≠ (pyRound q : ℚ)) = false)
    (hlo : grouped.flatten.min? = some lo) (hhi : grouped.flatten.max? = some hi)
    (hrange : ¬ (lo < -(tracks.length : ℚ) ∨ (tracks.length : ℚ) ≤ hi))
    (hres : grouped.mapM (resolveGroup tracks gains) = some gds)
    (hneg : (∃ tg ∈ gds.flatten, pyRound ((fr : ℚ) * tg.1.start_time) < 0) ∨
      pyRound ((fr : ℚ) * o) < 0 ∨ pyRound ((fr : ℚ) * t) < 0) :
    mixGroups tracks fr gains o t grouped = .error .negativeDimension := by
  unfold mixGroups
  simp only [hany, Bool.false_eq_true, if_false, hlo, hhi]
  rw [if_neg hrange, hres]
  show (if (∃ tg ∈ gds.flatten, pyRound ((fr : ℚ) * tg.1.start_time) < 0) ∨
      pyRound ((fr : ℚ) * o) < 0 ∨ pyRound ((fr : ℚ) * t) < 0 then
      (.error .negativeDimension : Except MixError (List (List ℚ)))
    else .ok (stackGroups fr o t gds)) = .error .negativeDimension
  rw [if_pos hneg]

theorem pyRound_nonneg (q : ℚ) (h : 0 ≤ q) : 0 ≤ pyRound q := by
  have h0 : (0 : ℤ) ≤ ⌊q⌋ := Int.le_floor.mpr (by exact_mod_cast h)
  unfold pyRound
  split_ifs <;> omega

theorem pyGet?_isSome_of_range {α : Type _} (xs : List α) (i : ℤ)
    (h1 : -(xs.length : ℤ) ≤ i) (h2 : i < xs.length) :
    ∃ a, pyGet? xs i = some a := by
  unfold pyGet?
  by_cases h0 : 0 ≤ i
  · rw [if_pos h0]
    have hlt : i.toNat < xs.length := by omega
    exact ⟨xs.get ⟨i.toNat, hlt⟩, List.get?_eq_some.mpr ⟨hlt, rfl⟩⟩
  · rw [if_neg h0, if_neg (by omega)]
    have hlt : ((xs.length : ℤ) + i).toNat < xs.length := by omega
    exact ⟨xs.get ⟨((xs.length : ℤ) + i).toNat, hlt⟩, List.get?_eq_some.mpr ⟨hlt, rfl⟩⟩

theorem resolveGroup_isSome (tracks : List Track) (gains : List ℚ)
    (hglen : gains.length = tracks.length) :
    ∀ g : List ℚ,
      (∀ q ∈ g, q.den = 1) →
      (∀ q ∈ g, -(tracks.length : ℚ) ≤ q ∧ q < (tracks.length : ℚ)) →
      ∃ gd, resolveGroup tracks gains g = some gd := by
  intro g
  induction g with
  | nil => exact fun _ _ => ⟨[], rfl⟩
  | cons q rest ih =>
    intro hint hrange
    have hq : (q.num : ℚ) = q := (Rat.den_eq_one_iff q).mp (hint q (by simp))
    have hfl : ⌊q⌋ = q.num := by rw [← hq, Int.floor_intCast, Rat.num_intCast]
    have hb := hrange q (by simp)
    have hb1 : -(tracks.length : ℤ) ≤ ⌊q⌋ := by
      rw [hfl]
      have := hb.1
      rw [← hq] at this
      exact_mod_cast this
    have hb2 : ⌊q⌋ < (tracks.length : ℤ) := by
      rw [hfl]
      have := hb.2
      rw [← hq] at this
      exact_mod_cast this
    obtain ⟨tk, htk⟩ := pyGet?_isSome_of_range tracks ⌊q⌋ (by exact_mod_cast hb1) (by exact_mod_cast hb2)
    obtain ⟨gn, hgn⟩ := pyGet?_isSome_of_range gains ⌊q⌋
      (by rw [hglen]; exact_mod_cast hb1) (by rw [hglen]; exact_mod_cast hb2)
    obtain ⟨gd, hgd⟩ := ih (fun x hx => hint x (by simp [hx]))
      (fun x hx => hrange x (by simp [hx]))
    refine ⟨(tk, gn) :: gd, ?_⟩
    unfold resolveGroup at hgd ⊢
    rw [List.mapM_cons, htk, hgn, hgd]
    rfl

theorem mapM_resolveGroup_isSome (tracks : List Track) (gains : List ℚ)
    (hglen : gains.length = tracks.length) :
    ∀ gs : List (List ℚ),
      (∀ q ∈ gs.flatten, q.den = 1) →
      (∀ q ∈ gs.flatten, -(tracks.length : ℚ) ≤ q ∧ q < (tracks.length : ℚ)) →
      ∃ gds, gs.mapM (resolveGroup tracks gains) = some gds ∧ gds.length = gs.length := by
  intro gs
  induction gs with
  | nil => exact fun _ _ => ⟨[], rfl, rfl⟩
  | cons g rest ih =>
    intro hint hrange
    obtain ⟨gd, hgd⟩ := resolveGroup_isSome tracks gains hglen g
      (fun q hq => hint q (by simp [hq]))
      (fun q hq => hrange q (by simp [hq]))
    obtain ⟨gds, hgds, hlen⟩ := ih
      (fun q hq => hint q (by simp; right; exact (List.mem_flatten.mp hq)))
      (fun q hq => hrange q (by simp; right; exact (List.mem_flatten.mp hq)))
    refine ⟨gd :: gds, ?_, by simp [hlen]⟩
    rw [List.mapM_cons, hgd, hgds]
    rfl

theorem mapM_option_forall₂ {α β : Type _} (f : α → Option β) :
    ∀ (l : List α) (r : List β), l.mapM f = some r →
      List.Forall₂ (fun a b => f a = some b) l r := by
  intro l
  induction l with
  | nil =>
    intro r h
    simp only [List.mapM_nil] at h
    rcases Option.some.inj h with rfl
    exact .nil
  | cons a l ih =>
    intro r h
    rw [List.mapM_cons] at h
    rcases hfa : f a with _ | b
    · rw [hfa] at h
      simp at h
    · rw [hfa] at h
      rcases hml : l.mapM f with _ | bs
      · rw [hml] at h
        simp at h
      · rw [hml] at h
        have : b :: bs = r := by
          simpa using h
        rw [← this]
        exact .cons hfa (ih bs hml)

theorem forall₂_mem_right {α β : Type _} {R : α → β → Prop} :
    ∀ {l : List α} {r : List β}, List.Forall₂ R l r →
      ∀ b ∈ r, ∃ a ∈ l, R a b := by
  intro l r h
  induction h with
  | nil =>
    intro b hb
    simp at hb
  | cons hab htail ih =>
    intro b hb
    rcases List.mem_cons.mp hb with rfl | hb
    · exact ⟨_, by simp, hab⟩
    · rcases ih b hb with ⟨a, ha, hr⟩
      exact ⟨a, by simp [ha], hr⟩

theorem pyGet?_mem {α : Type _} (xs : List α) (i : ℤ) (a : α)
    (h : pyGet? xs i = some a) : a ∈ xs := by
  unfold pyGet? at h
  split_ifs at h
  · rcases List.get?_eq_some.mp h with ⟨hlt, rfl⟩
    exact List.get_mem _ _ _
  · rcases List.get?_eq_some.mp h with ⟨hlt, rfl⟩
    exact List.get_mem _ _ _

/-- Every track of a resolved group is one of the project's tracks. -/
theorem resolveGroup_mem (tracks : List Track) (gains : List ℚ) (g : List ℚ)
    (gd : List (Track × ℚ)) (h : resolveGroup tracks gains g = some gd) :
    ∀ tg ∈ gd, tg.1 ∈ tracks := by
  intro tg htg
  unfold resolveGroup at h
  have hf := mapM_option_forall₂ _ g gd h
  rcases forall₂_mem_right hf tg htg with ⟨q, _, hr⟩
  rcases ht : pyGet? tracks ⌊q⌋ with _ | tk
  · rw [ht] at hr
    simp at hr
  rcases hg : pyGet? gains ⌊q⌋ with _ | gn
  · rw [ht, hg] at hr
    simp at hr
  rw [ht, hg] at hr
  have heq : (tk, gn) = tg := by simpa using hr
  rw [← heq]
  exact pyGet?_mem tracks ⌊q⌋ tk ht

theorem mapM_resolveGroup_mem (tracks : List Track) (gains : List ℚ)
    (gs : List (List ℚ)) (gds : List (List (Track × ℚ)))
    (h : gs.mapM (resolveGroup tracks gains) = some gds) :
    ∀ tg ∈ gds.flatten, tg.1 ∈ tracks := by
  intro tg htg
  rcases List.mem_flatten.mp htg with ⟨gd, hgd, htg'⟩
  have hf := mapM_option_forall₂ (resolveGroup tracks gains) gs gds h
  rcases forall₂_mem_right hf gd hgd with ⟨g, _, hr⟩
  exact resolveGroup_mem tracks gains g gd hr tg htg'

/-- Claim C5 (amended): mix validates in order — `ShapeMismatch` when a
non-empty `gains` list has the wrong length (an empty `gains` list is falsy
in Python and replaced by the defaults, so it does NOT trigger the error);
`NonIntegerIndex` when some flattened group index is not an integer;
`IndexOutOfRange` when some flattened index lies outside
`[-len(tracks), len(tracks))`.  When these validations pass (on a non-empty
flattened index list) AND the opening silence, the trailing silence and
every track start time are non-negative, mix returns a result without
raising; but passing the validations does not by itself prevent a raise —
with a negative duration (e.g. a negative opening silence whose rounded
sample count is below zero) the validations pass and `np.zeros` still
raises numpy's negative-dimension `ValueError`.  Failures carry no partial
output: an `Except.error` holds no result. -/
theorem C5_amended_validation_order :
    ∀ (tracks : List Track) (fr : ℕ) (o t : ℚ),
      (∀ (gl : List ℚ) (ga : Option (List (List ℚ))), gl ≠ [] →
        gl.length ≠ tracks.length →
        Project.mix tracks fr (some gl) o t ga = .error .shapeMismatch) ∧
      (∀ (gains_arg : Option (List ℚ)) (gs : List (List ℚ)), gs ≠ [] →
        (effectiveGains tracks gains_arg).length = tracks.length →
        (∃ q ∈ gs.flatten, q.den ≠ 1) →
        Project.mix tracks fr gains_arg o t (some gs) = .error .nonIntegerIndex) ∧
      (∀ (gains_arg : Option (List ℚ)) (gs : List (List ℚ)), gs ≠ [] →
        (effectiveGains tracks gains_arg).length = tracks.length →
        (∀ q ∈ gs.flatten, q.den = 1) →
        gs.flatten ≠ [] →
        (∃ q ∈ gs.flatten, q < -(tracks.length : ℚ) ∨ (tracks.length : ℚ) ≤ q) →
        Project.mix tracks fr gains_arg o t (some gs) = .error .indexOutOfRange) ∧
      (∀ (gains_arg : Option (List ℚ)) (gs : List (List ℚ)), gs ≠ [] →
        (effectiveGains tracks gains_arg).length = tracks.length →
        (∀ q ∈ gs.flatten, q.den = 1) →
        gs.flatten ≠ [] →
        (∀ q ∈ gs.flatten, -(tracks.length : ℚ) ≤ q ∧ q < (tracks.length : ℚ)) →
        0 ≤ o → 0 ≤ t → (∀ tk ∈ tracks, 0 ≤ tk.start_time) →
        ∃ res, Project.mix tracks fr gains_arg o t (some gs) = .ok res) ∧
      (∀ (gains_arg : Option (List ℚ)) (gs : List (List ℚ)), gs ≠ [] →
        (effectiveGains tracks gains_arg).length = tracks.length →
        (∀ q ∈ gs.flatten, q.den = 1) →
        gs.flatten ≠ [] →
        (∀ q ∈ gs.flatten, -(tracks.length : ℚ) ≤ q ∧ q < (tracks.length : ℚ)) →
        pyRound ((fr : ℚ) * o) < 0 →
        Project.mix tracks fr gains_arg o t (some gs) = .error .negativeDimension) := by
  intro tracks fr o t
  refine ⟨?_, ?_, ?_, ?_, ?_⟩
  · intro gl ga hne hlen
    apply mix_shape_error
    rw [effectiveGains_some_of_ne tracks gl hne]
    exact hlen
  · intro gains_arg gs hne hlen ⟨q, hq, hden⟩
    rw [mix_eq_mixGroups tracks fr gains_arg o t (some gs) hlen,
      effectiveGroups_some_of_ne tracks gs hne]
    apply mixGroups_nonInteger
    refine List.any_eq_true.mpr ⟨q, hq, ?_⟩
    simp only [decide_eq_true_eq]
    exact fun he => hden ((cast_pyRound_eq_iff q).mp he.symm)
  · intro gains_arg gs hne hlen hint hfne ⟨q, hq, hvio⟩
    rw [mix_eq_mixGroups tracks fr gains_arg o t (some gs) hlen,
      effectiveGroups_some_of_ne tracks gs hne]
    have hany : gs.flatten.any (fun q => q ≠ (pyRound q : ℚ)) = false := by
      refine List.any_eq_false.mpr ?_
      intro x hx
      simp only [decide_eq_true_eq, not_not]
      exact ((cast_pyRound_eq_iff x).mpr (hint x hx)).symm
    rcases hlo : gs.flatten.min? with _ | lo
    · rw [List.min?_eq_none_iff] at hlo
      exact absurd hlo hfne
    rcases hhi : gs.flatten.max? with _ | hi
    · rw [List.max?_eq_none_iff] at hhi
      exact absurd hhi hfne
    apply mixGroups_outOfRange tracks fr _ o t gs lo hi hany hlo hhi
    rcases hvio with hlt | hge
    · exact .inl (lt_of_le_of_lt ((rat_min?_spec gs.flatten lo hlo).2 q hq) hlt)
    · exact .inr (le_trans hge ((rat_max?_spec gs.flatten hi hhi).2 q hq))
  · intro gains_arg gs hne hlen hint hfne hrange ho ht hst
    rw [mix_eq_mixGroups tracks fr gains_arg o t (some gs) hlen,
      effectiveGroups_some_of_ne tracks gs hne]
    have hany : gs.flatten.any (fun q => q ≠ (pyRound q : ℚ)) = false := by
      refine List.any_eq_false.mpr ?_
      intro x hx
      simp only [decide_eq_true_eq, not_not]
      exact ((cast_pyRound_eq_iff x).mpr (hint x hx)).symm
    rcases hlo : gs.flatten.min? with _ | lo
    · rw [List.min?_eq_none_iff] at hlo
      exact absurd hlo hfne
    rcases hhi : gs.flatten.max? with _ | hi
    · rw [List.max?_eq_none_iff] at hhi
      exact absurd hhi hfne
    obtain ⟨gds, hgds, hlens⟩ := mapM_resolveGroup_isSome tracks _ hlen gs hint hrange
    refine ⟨stackGroups fr o t gds, ?_⟩
    apply mixGroups_ok tracks fr _ o t gs lo hi gds hany hlo hhi ?_ hgds ?_
    · rintro (hl | hr)
      · exact absurd hl (not_lt.mpr ((hrange lo ((rat_min?_spec gs.flatten lo hlo).1)).1))
      · exact absurd hr (not_le.mpr ((hrange hi ((rat_max?_spec gs.flatten hi hhi).1)).2))
    · rintro (⟨tg, htg, hlt⟩ | hlt | hlt)
      · exact absurd hlt (not_lt.mpr (pyRound_nonneg _ (mul_nonneg (Nat.cast_nonneg fr)
          (hst tg.1 (mapM_resolveGroup_mem tracks _ gs gds hgds tg htg)))))
      · exact absurd hlt (not_lt.mpr (pyRound_nonneg _ (mul_nonneg (Nat.cast_nonneg fr) ho)))
      · exact absurd hlt (not_lt.mpr (pyRound_nonneg _ (mul_nonneg (Nat.cast_nonneg fr) ht)))
  · intro gains_arg gs hne hlen hint hfne hrange hneg
    rw [mix_eq_mixGroups tracks fr gains_arg o t (some gs) hlen,
      effectiveGroups_some_of_ne tracks gs hne]
    have hany : gs.flatten.any (fun q => q ≠ (pyRound q : ℚ)) = false := by
      refine List.any_eq_false.mpr ?_
      intro x hx
      simp only [decide_eq_true_eq, not_not]
      exact ((cast_pyRound_eq_iff x).mpr (hint x hx)).symm
    rcases hlo : gs.flatten.min? with _ | lo
    · rw [List.min?_eq_none_iff] at hlo
      exact absurd hlo hfne
    rcases hhi : gs.flatten.max? with _ | hi
    · rw [List.max?_eq_none_iff] at hhi
      exact absurd hhi hfne
    obtain ⟨gds, hgds, hlens⟩ := mapM_resolveGroup_isSome tracks _ hlen gs hint hrange
    apply mixGroups_negative tracks fr _ o t gs lo hi gds hany hlo hhi ?_ hgds
      (.inr (.inl hneg))
    rintro (hl | hr)
    · exact absurd hl (not_lt.mpr ((hrange lo ((rat_min?_spec gs.flatten lo hlo).1)).1))
    · exact absurd hr (not_le.mpr ((hrange hi ((rat_max?_spec gs.flatten hi hhi).1)).2))

/-- Counterexample to claim C5 as stated: with one track and `gains = []`,
`len(gains) = 0` differs from `len(tracks) = 1`, yet mix does not raise
`ShapeMismatch` — the empty list is falsy in Python, so it is replaced by
the default gains, and the call returns an output. -/
theorem C5_counterexample :
    ([] : List ℚ).length ≠ [oneSampleTrack].length ∧
    Project.mix [oneSampleTrack] 1 (some []) 0 0 (some [[0]]) = .ok [[0], [0]] := by
  constructor
  · decide
  · have hr0 : pyRound 0 = 0 := by
      have := pyRound_intCast 0
      simpa using this
    norm_num [Project.mix, effectiveGains, effectiveGroups, mixGroups, resolveGroup,
      pyGet?, stackGroups, groupTimeline, placedTrack, offsetSamples, zerosCols,
      scaleSignal, vstack, sum_two_sounds, oneSampleTrack, hr0, List.min?,
      List.mapM, List.mapM.loop, Int.floor_zero]

/-- Witness for the amended C5: a wrong-length non-empty gains list raises
`ShapeMismatch`; a validated call with non-negative durations returns a
result; and a validated call with opening silence `-1` raises the
negative-dimension error. -/
theorem C5_witness :
    Project.mix [oneSampleTrack] 1 (some [1, 2]) 0 0 none = .error .shapeMismatch ∧
    (∃ res, Project.mix [oneSampleTrack] 1 none 0 0 (some [[0]]) = .ok res) ∧
    Project.mix [oneSampleTrack] 1 none (-1) 0 (some [[0]]) =
      .error .negativeDimension := by
  refine ⟨?_, ?_, ?_⟩
  · exact (C5_amended_validation_order [oneSampleTrack] 1 0 0).1 [1, 2] none
      (by simp) (by simp)
  · exact (C5_amended_validation_order [oneSampleTrack] 1 0 0).2.2.2.1 none [[0]]
      (by simp) (by simp [effectiveGains])
      (by
        intro q hq
        simp at hq
        subst hq
        rfl)
      (by simp)
      (by
        intro q hq
        simp at hq
        subst hq
        norm_num)
      (by norm_num)
      (by norm_num)
      (by
        intro tk htk
        rcases List.mem_singleton.mp htk with rfl
        exact le_refl 0)
  · exact (C5_amended_validation_order [oneSampleTrack] 1 (-1) 0).2.2.2.2 none [[0]]
      (by simp) (by simp [effectiveGains])
      (by
        intro q hq
        simp at hq
        subst hq
        rfl)
      (by simp)
      (by
        intro q hq
        simp at hq
        subst hq
        norm_num)
      (by
        have h1 : ((1 : ℕ) : ℚ) * (-1) = ((-1 : ℤ) : ℚ) := by norm_num
        rw [h1, pyRound_intCast]
        decide)

theorem foldl_sum_two_sounds_length {β : Type _} (f : β → Signal) :
    ∀ (l : List β) (acc : Signal),
      (l.foldl (fun a x => sum_two_sounds a (f x)) acc).length =
        l.foldl (fun n x => max n (f x).length) acc.length := by
  intro l
  induction l with
  | nil => intro acc; rfl
  | cons x xs ih =>
    intro acc
    simp only [List.foldl_cons]
    rw [ih, sum_two_sounds_length]

theorem groupTimeline_length (fr : ℕ) (o t : ℚ) (gd : List (Track × ℚ)) :
    (groupTimeline fr o t gd).length =
      offsetSamples fr o +
        (gd.foldl (fun n tg => max n (placedTrack fr tg.1 tg.2).length) 0) +
        offsetSamples fr t := by
  unfold groupTimeline zerosCols
  rw [List.length_append, List.length_append, List.length_replicate,
    List.length_replicate,
    foldl_sum_two_sounds_length (fun tg : Track × ℚ => placedTrack fr tg.1 tg.2) gd []]
  rfl

theorem vstack_cons (g : Signal) (gs : List Signal) :
    vstack (g :: gs) = g.map Prod.fst :: g.map Prod.snd :: vstack gs := by
  unfold vstack
  rw [List.map_cons, List.flatten_cons]
  rfl

theorem vstack_length (gs : List Signal) : (vstack gs).length = 2 * gs.length := by
  induction gs with
  | nil => rfl
  | cons g gs ih =>
    rw [vstack_cons, List.length_cons, List.length_cons, ih, List.length_cons]
    omega

theorem vstack_mem (gs : List Signal) (r : List ℚ) (hr : r ∈ vstack gs) :
    ∃ g ∈ gs, r = g.map Prod.fst ∨ r = g.map Prod.snd := by
  induction gs with
  | nil => simp [vstack] at hr
  | cons g gs ih =>
    rw [vstack_cons] at hr
    rcases List.mem_cons.mp hr with rfl | hr2
    · exact ⟨g, by simp, .inl rfl⟩
    · rcases List.mem_cons.mp hr2 with rfl | hr3
      · exact ⟨g, by simp, .inr rfl⟩
      · rcases ih hr3 with ⟨g', hg', hor⟩
        exact ⟨g', by simp [hg'], hor⟩

theorem vstack_get (gs : List Signal) :
    ∀ (k : ℕ) (hk : k < gs.length),
      (vstack gs).get? (2 * k) = some ((gs.get ⟨k, hk⟩).map Prod.fst) ∧
      (vstack gs).get? (2 * k + 1) = some ((gs.get ⟨k, hk⟩).map Prod.snd) := by
  induction gs with
  | nil => intro k hk; simp at hk
  | cons g gs ih =>
    intro k hk
    cases k with
    | zero =>
      rw [vstack_cons]
      exact ⟨rfl, rfl⟩
    | succ k' =>
      have hk' : k' < gs.length := by
        simpa using Nat.lt_of_succ_lt_succ hk
      obtain ⟨ih1, ih2⟩ := ih k' hk'
      rw [vstack_cons]
      constructor
      · rw [show 2 * (k' + 1) = (2 * k' + 1) + 1 by ring]
        show (vstack gs).get? (2 * k') = _
        rw [ih1]
        rfl
      · rw [show 2 * (k' + 1) + 1 = (2 * k' + 1 + 1) + 1 by ring]
        show (vstack gs).get? (2 * k' + 1) = _
        rw [ih2]
        rfl

theorem le_foldl_max : ∀ (l : List ℕ) (a : ℕ), a ≤ l.foldl max a := by
  intro l
  induction l with
  | nil => exact fun a => le_refl a
  | cons m l ih =>
    intro a
    exact le_trans (le_max_left a m) (ih (max a m))

theorem mem_le_foldl_max : ∀ (l : List ℕ) (a n : ℕ), n ∈ l → n ≤ l.foldl max a := by
  intro l
  induction l with
  | nil => intro a n hn; simp at hn
  | cons m l ih =>
    intro a n hn
    rcases List.mem_cons.mp hn with rfl | hn'
    · exact le_trans (le_max_right a n) (le_foldl_max l (max a n))
    · exact ih (max a m) n hn'

theorem foldl_max_perm {l l' : List ℕ} (h : l.Perm l') : ∀ a, l.foldl max a = l'.foldl max a := by
  induction h with
  | nil => intro a; rfl
  | cons x h ih =>
    intro a
    simp only [List.foldl_cons]
    exact ih _
  | swap x y l =>
    intro a
    simp only [List.foldl_cons]
    rw [show a ⊔ y ⊔ x = a ⊔ x ⊔ y from by rw [max_assoc, max_comm y x, ← max_assoc]]
  | trans h1 h2 ih1 ih2 =>
    intro a
    rw [ih1, ih2]

theorem forall₂_map_eq {α β γ : Type _} (R : α → β → Prop) (p : α → γ) (q : β → γ)
    (h : ∀ a b, R a b → p a = q b) :
    ∀ {l : List α} {r : List β}, List.Forall₂ R l r → l.map p = r.map q := by
  intro l r hlr
  induction hlr with
  | nil => rfl
  | cons hab htail ih => simp [h _ _ hab, ih]

theorem mixedLengths_eq (tracks : List Track) (gains : List ℚ) (fr : ℕ) (o t : ℚ)
    (gs : List (List ℚ)) (gds : List (List (Track × ℚ)))
    (h : gs.mapM (resolveGroup tracks gains) = some gds) :
    (gds.map (groupTimeline fr o t)).map List.length =
      gs.map (fun g => offsetSamples fr o + groupContentLength tracks gains fr g +
        offsetSamples fr t) := by
  have hf := mapM_option_forall₂ (resolveGroup tracks gains) gs gds h
  rw [List.map_map]
  refine (forall₂_map_eq _ _ _ ?_ hf).symm
  intro g gd hg
  rw [groupContentLength, hg]
  show _ = (groupTimeline fr o t gd).length
  rw [groupTimeline_length]
  rfl

theorem mixGroups_empty_min (tracks : List Track) (fr : ℕ) (gains : List ℚ)
    (o t : ℚ) (grouped : List (List ℚ))
    (hany : grouped.flatten.any (fun q => q ≠ (pyRound q : ℚ)) = false)
    (hlo : grouped.flatten.min? = none) :
    mixGroups tracks fr gains o t grouped = .error .emptyIndexList := by
  have hnil : grouped.flatten = [] := List.min?_eq_none_iff.mp hlo
  have hhi : grouped.flatten.max? = none := List.max?_eq_none_iff.mpr hnil
  unfold mixGroups
  simp only [hany, Bool.false_eq_true, if_false, hlo, hhi]

theorem mixGroups_internalError (tracks : List Track) (fr : ℕ) (gains : List ℚ)
    (o t : ℚ) (grouped : List (List ℚ)) (lo hi : ℚ)
    (hany : grouped.flatten.any (fun q => q ≠ (pyRound q : ℚ)) = false)
    (hlo : grouped.flatten.min? = some lo) (hhi : grouped.flatten.max? = some hi)
    (hrange : ¬ (lo < -(tracks.length : ℚ) ∨ (tracks.length : ℚ) ≤ hi))
    (hres : grouped.mapM (resolveGroup tracks gains) = none) :
    mixGroups tracks fr gains o t grouped = .error .internalIndexError := by
  unfold mixGroups
  simp only [hany, Bool.false_eq_true, if_false, hlo, hhi]
  rw [if_neg hrange, hres]

/-- Inversion: a successful mix call with an explicit non-empty group list
comes from resolved groups stacked by `stackGroups`. -/
theorem mix_ok_inv (tracks : List Track) (fr : ℕ) (gains_arg : Option (List ℚ))
    (o t : ℚ) (gs : List (List ℚ)) (res : List (List ℚ)) (hne : gs ≠ [])
    (h : Project.mix tracks fr gains_arg o t (some gs) = .ok res) :
    (effectiveGains tracks gains_arg).length = tracks.length ∧
    ∃ gds, gs.mapM (resolveGroup tracks (effectiveGains tracks gains_arg)) = some gds ∧
      res = stackGroups fr o t gds := by
  have hlen : (effectiveGains tracks gains_arg).length = tracks.length := by
    by_contra hc
    rw [mix_shape_error tracks fr gains_arg o t (some gs) hc] at h
    simp at h
  refine ⟨hlen, ?_⟩
  rw [mix_eq_mixGroups tracks fr gains_arg o t (some gs) hlen,
    effectiveGroups_some_of_ne tracks gs hne] at h
  by_cases hany : gs.flatten.any (fun q => q ≠ (pyRound q : ℚ)) = true
  · rw [mixGroups_nonInteger tracks fr _ o t gs hany] at h
    simp at h
  · have hany' : gs.flatten.any (fun q => q ≠ (pyRound q : ℚ)) = false := by
      simpa using hany
    rcases hlo : gs.flatten.min? with _ | lo
    · rw [mixGroups_empty_min tracks fr _ o t gs hany' hlo] at h
      simp at h
    rcases hhi : gs.flatten.max? with _ | hi
    · rw [List.max?_eq_none_iff] at hhi
      rw [List.min?_eq_none_iff.mpr hhi] at hlo
      simp at hlo
    by_cases hrange : lo < -(tracks.length : ℚ) ∨ (tracks.length : ℚ) ≤ hi
    · rw [mixGroups_outOfRange tracks fr _ o t gs lo hi hany' hlo hhi hrange] at h
      simp at h
    · rcases hres : gs.mapM (resolveGroup tracks (effectiveGains tracks gains_arg))
          with _ | gds
      · rw [mixGroups_internalError tracks fr _ o t gs lo hi hany' hlo hhi hrange hres] at h
        simp at h
      · by_cases hneg : (∃ tg ∈ gds.flatten, pyRound ((fr : ℚ) * tg.1.start_time) < 0) ∨
            pyRound ((fr : ℚ) * o) < 0 ∨ pyRound ((fr : ℚ) * t) < 0
        · rw [mixGroups_negative tracks fr _ o t gs lo hi gds hany' hlo hhi hrange hres
            hneg] at h
          simp at h
        · rw [mixGroups_ok tracks fr _ o t gs lo hi gds hany' hlo hhi hrange hres hneg] at h
          exact ⟨gds, rfl, (Except.ok.inj h).symm⟩

/-- Every row of `stackGroups` has the common padded length, which is the
fold of `max` over the group timeline lengths. -/
theorem stackGroups_row_lengths (fr : ℕ) (o t : ℚ) (gds : List (List (Track × ℚ))) :
    ∀ row ∈ stackGroups fr o t gds,
      row.length = ((gds.map (groupTimeline fr o t)).map List.length).foldl max 0 := by
  intro row hrow
  unfold stackGroups at hrow
  rcases vstack_mem _ row hrow with ⟨g, hg, hor⟩
  rcases List.mem_map.mp hg with ⟨m, hm, rfl⟩
  have hmlen : m.length ≤ ((gds.map (groupTimeline fr o t)).map List.length).foldl max 0 :=
    mem_le_foldl_max _ 0 m.length (List.mem_map.mpr ⟨m, hm, rfl⟩)
  have hlen : (m ++ zerosCols
      (((gds.map (groupTimeline fr o t)).map List.length).foldl max 0 - m.length)).length =
      ((gds.map (groupTimeline fr o t)).map List.length).foldl max 0 := by
    rw [List.length_append]
    unfold zerosCols
    rw [List.length_replicate]
    omega
  rcases hor with rfl | rfl <;> rw [List.length_map, hlen]

/-- Claim C3: for every valid mix call with an explicit non-empty group
list, the output length (the common length of every output row) equals the
maximum over groups of the sum of the opening padding, the length of that
group's summed content, and the trailing padding — and it is invariant
under permuting the listed groups: a mix of any permutation of the groups
yields rows of the same length, given by the same formula over the original
group list. -/
theorem C3_output_length_max_and_group_order_invariant :
    ∀ (tracks : List Track) (fr : ℕ) (gains_arg : Option (List ℚ)) (o t : ℚ)
      (gs gs' : List (List ℚ)) (res res' : List (List ℚ)),
      gs ≠ [] → gs.Perm gs' →
      Project.mix tracks fr gains_arg o t (some gs) = .ok res →
      Project.mix tracks fr gains_arg o t (some gs') = .ok res' →
      (∀ row ∈ res, row.length =
        mixOutputLength tracks (effectiveGains tracks gains_arg) fr o t gs) ∧
      (∀ row ∈ res', row.length =
        mixOutputLength tracks (effectiveGains tracks gains_arg) fr o t gs) := by
  intro tracks fr gains_arg o t gs gs' res res' hne hperm h h'
  have hne' : gs' ≠ [] := by
    intro hc
    subst hc
    exact hne hperm.eq_nil
  obtain ⟨hlen, gds, hgds, rfl⟩ := mix_ok_inv tracks fr gains_arg o t gs res hne h
  obtain ⟨_, gds', hgds', rfl⟩ := mix_ok_inv tracks fr gains_arg o t gs' res' hne' h'
  constructor
  · intro row hrow
    rw [stackGroups_row_lengths fr o t gds row hrow,
      mixedLengths_eq tracks _ fr o t gs gds hgds]
    rfl
  · intro row hrow
    rw [stackGroups_row_lengths fr o t gds' row hrow,
      mixedLengths_eq tracks _ fr o t gs' gds' hgds']
    exact foldl_max_perm (hperm.symm.map _) 0

/-- Witness for C3, at one track mixed in two singleton groups. -/
theorem C3_witness :
    (∀ row ∈ ([[0], [0], [0], [0]] : List (List ℚ)), row.length =
      mixOutputLength [oneSampleTrack] (effectiveGains [oneSampleTrack] none)
        1 0 0 [[0], [0]]) ∧
    (∀ row ∈ ([[0], [0], [0], [0]] : List (List ℚ)), row.length =
      mixOutputLength [oneSampleTrack] (effectiveGains [oneSampleTrack] none)
        1 0 0 [[0], [0]]) := by
  have hr0 : pyRound 0 = 0 := by
    have := pyRound_intCast 0
    simpa using this
  have heval : Project.mix [oneSampleTrack] 1 none 0 0 (some [[0], [0]]) =
      .ok [[0], [0], [0], [0]] := by
    norm_num [Project.mix, effectiveGains, effectiveGroups, mixGroups, resolveGroup,
      pyGet?, stackGroups, groupTimeline, placedTrack, offsetSamples, zerosCols,
      scaleSignal, vstack, sum_two_sounds, oneSampleTrack, hr0, List.min?,
      List.mapM, List.mapM.loop, Int.floor_zero, min_def, max_def]
  exact C3_output_length_max_and_group_order_invariant [oneSampleTrack] 1 none 0 0
    [[0], [0]] [[0], [0]] [[0], [0], [0], [0]] [[0], [0], [0], [0]]
    (by simp) (List.Perm.refl _) heval heval

theorem map_fst_append_zeros (m : Signal) (n : ℕ) :
    (m ++ zerosCols n).map Prod.fst = m.map Prod.fst ++ List.replicate n (0 : ℚ) := by
  rw [List.map_append]
  unfold zerosCols
  rw [List.map_replicate]

theorem map_snd_append_zeros (m : Signal) (n : ℕ) :
    (m ++ zerosCols n).map Prod.snd = m.map Prod.snd ++ List.replicate n (0 : ℚ) := by
  rw [List.map_append]
  unfold zerosCols
  rw [List.map_replicate]

theorem get_map {α β : Type _} (f : α → β) (l : List α) (k : ℕ)
    (h : k < (l.map f).length) :
    (l.map f).get ⟨k, h⟩ = f (l.get ⟨k, by simpa using h⟩) := by
  simp [List.get_eq_getElem, List.getElem_map]

/-- Claim C4: a successful mix with non-empty explicit gains and groups has
exactly `2 * |groups|` channels; the rows come in group order (rows `2k`
and `2k+1` are the two channels of group `k`), each right-padded with zero
samples up to the common maximum length `L`, which every row attains. -/
theorem C4_channels_stacking_padding :
    ∀ (tracks : List Track) (fr : ℕ) (gl : List ℚ) (o t : ℚ)
      (gs : List (List ℚ)) (res : List (List ℚ)),
      gs ≠ [] → gl ≠ [] →
      Project.mix tracks fr (some gl) o t (some gs) = .ok res →
      ∃ gds, gs.mapM (resolveGroup tracks gl) = some gds ∧
        gds.length = gs.length ∧
        res.length = 2 * gs.length ∧
        ∃ L, (∀ row ∈ res, row.length = L) ∧
          ∀ (k : ℕ) (hk : k < gds.length),
            res.get? (2 * k) = some
              (((groupTimeline fr o t (gds.get ⟨k, hk⟩)).map Prod.fst) ++
                List.replicate (L - (groupTimeline fr o t (gds.get ⟨k, hk⟩)).length) 0) ∧
            res.get? (2 * k + 1) = some
              (((groupTimeline fr o t (gds.get ⟨k, hk⟩)).map Prod.snd) ++
                List.replicate (L - (groupTimeline fr o t (gds.get ⟨k, hk⟩)).length) 0) := by
  intro tracks fr gl o t gs res hne hgne h
  obtain ⟨hlen, gds, hgds, rfl⟩ := mix_ok_inv tracks fr (some gl) o t gs res hne h
  rw [effectiveGains_some_of_ne tracks gl hgne] at hgds
  have hlens : gds.length = gs.length :=
    ((mapM_option_forall₂ _ gs gds hgds).length_eq).symm
  refine ⟨gds, hgds, hlens, ?_, ?_⟩
  · show (stackGroups fr o t gds).length = 2 * gs.length
    unfold stackGroups
    rw [vstack_length, List.length_map, List.length_map, hlens]
  · refine ⟨((gds.map (groupTimeline fr o t)).map List.length).foldl max 0,
      stackGroups_row_lengths fr o t gds, ?_⟩
    intro k hk
    have hk2 : k < ((gds.map (groupTimeline fr o t)).map
        (fun m => m ++ zerosCols
          ((((gds.map (groupTimeline fr o t)).map List.length).foldl max 0) - m.length))).length := by
      simpa using hk
    obtain ⟨h1, h2⟩ := vstack_get _ k hk2
    constructor
    · show (stackGroups fr o t gds).get? (2 * k) = _
      unfold stackGroups
      rw [h1, get_map, get_map]
      rw [map_fst_append_zeros]
    · show (stackGroups fr o t gds).get? (2 * k + 1) = _
      unfold stackGroups
      rw [h2, get_map, get_map]
      rw [map_snd_append_zeros]

/-- Witness for C4, at one track mixed in one singleton group with gain 1. -/
theorem C4_witness :
    ∃ gds, ([[0]] : List (List ℚ)).mapM (resolveGroup [oneSampleTrack] [1]) = some gds ∧
      gds.length = ([[0]] : List (List ℚ)).length ∧
      ([[0], [0]] : List (List ℚ)).length = 2 * ([[0]] : List (List ℚ)).length ∧
      ∃ L, (∀ row ∈ ([[0], [0]] : List (List ℚ)), row.length = L) ∧
        ∀ (k : ℕ) (hk : k < gds.length),
          ([[0], [0]] : List (List ℚ)).get? (2 * k) = some
            (((groupTimeline 1 0 0 (gds.get ⟨k, hk⟩)).map Prod.fst) ++
              List.replicate (L - (groupTimeline 1 0 0 (gds.get ⟨k, hk⟩)).length) 0) ∧
          ([[0], [0]] : List (List ℚ)).get? (2 * k + 1) = some
            (((groupTimeline 1 0 0 (gds.get ⟨k, hk⟩)).map Prod.snd) ++
              List.replicate (L - (groupTimeline 1 0 0 (gds.get ⟨k, hk⟩)).length) 0) := by
  have hr0 : pyRound 0 = 0 := by
    have := pyRound_intCast 0
    simpa using this
  have heval : Project.mix [oneSampleTrack] 1 (some [1]) 0 0 (some [[0]]) =
      .ok [[0], [0]] := by
    norm_num [Project.mix, effectiveGains, effectiveGroups, mixGroups, resolveGroup,
      pyGet?, stackGroups, groupTimeline, placedTrack, offsetSamples, zerosCols,
      scaleSignal, vstack, sum_two_sounds, oneSampleTrack, hr0, List.min?,
      List.mapM, List.mapM.loop, Int.floor_zero]
  exact C4_channels_stacking_padding [oneSampleTrack] 1 [1] 0 0 [[0]] [[0], [0]]
    (by simp) (by simp) heval

end Pymixer
